import Mathlib

/-!
Verification of `src/prepare-release.js` (browser-specs release automation).

The development shallowly embeds the script's core:
* the JavaScript string/number primitives the script uses
  (`String.prototype.split`, `parseInt(·, 10)`, number-to-string
  rendering, `Array.prototype.join`),
* the version bump computed in `prepareRelease` (lines 219–224),
* `computeDiff` (lines 56–146): the normalization pipeline applied to the
  output of the external `diff` tool, and its filesystem side effects,
* `prepareRelease` (lines 157–345): modelled as a pure function from the
  run's environment (search result, computed diff, shas, …) to the list of
  Octokit gateway calls the script issues, in order.

External collaborators (npm, GNU diff, the GitHub API) are modelled as
environment inputs; everything the script itself computes is translated
from the source.
-/

namespace PrepareRelease

set_option maxRecDepth 100000

/-! ## JavaScript string primitives -/

/-- Whitespace characters recognised by JavaScript's `parseInt` when it
skips leading whitespace. -/
def jsIsSpace (c : Char) : Bool :=
  c = ' ' || c = '\t' || c = '\n' || c = '\r'

/-- JavaScript `str.split(sep)` for a single-character separator, on the
character-list representation of strings.  `"".split(".") = [""]` and the
separator splits at every occurrence. -/
def jsSplitChar (sep : Char) : List Char → List (List Char)
  | [] => [[]]
  | c :: rest =>
    match jsSplitChar sep rest with
    | [] => [[]]
    | h :: t => if c = sep then [] :: h :: t else (c :: h) :: t

/-- A decimal digit character. -/
def isDigitChar (c : Char) : Bool :=
  '0' ≤ c && c ≤ '9'

/-- Numeric value accumulated left-to-right over decimal digit characters. -/
def digitsVal (l : List Char) : Nat :=
  l.foldl (fun a c => a * 10 + (c.toNat - 48)) 0

/-- The decimal digit character for `d < 10`. -/
def digitChar (d : Nat) : Char :=
  match d with
  | 0 => '0' | 1 => '1' | 2 => '2' | 3 => '3' | 4 => '4'
  | 5 => '5' | 6 => '6' | 7 => '7' | 8 => '8' | 9 => '9'
  | _ => '*'

/-- Decimal rendering of a positive natural, most significant digit first.
The first argument is recursion fuel; `n ≤ fuel` suffices. -/
def natToCharsAux : Nat → Nat → List Char
  | 0, _ => []
  | fuel + 1, n =>
    if n = 0 then []
    else natToCharsAux fuel (n / 10) ++ [digitChar (n % 10)]

/-- Canonical decimal rendering of a natural number. -/
def natToChars (n : Nat) : List Char :=
  if n = 0 then ['0'] else natToCharsAux (n + 1) n

/-! ## IEEE-754 binary64 numbers

JavaScript numbers are IEEE-754 binary64 values: `parseInt` returns the
mathematical integer value of the digit run rounded to the nearest
double (ties to even, overflowing to `Infinity`), `+ 1` is a correctly
rounded addition, and `String()` renders the shortest decimal
significand that reads back as the same double.  Every number this
script manipulates is `NaN`, `±Infinity` or an integer-valued double,
so the embedding models exactly that fragment, with the exact integer
value of the double carried explicitly. -/

/-- Bit length of a natural below `2 ^ fuel` (recursion fuel first). -/
def bitLenSmall : Nat → Nat → Nat
  | 0, _ => 0
  | fuel + 1, n => if n = 0 then 0 else bitLenSmall fuel (n / 2) + 1

/-- Bit length in 64-bit chunks; exact for `n < 2 ^ (64 * fuel)`. -/
def bitLenAux : Nat → Nat → Nat
  | 0, _ => 0
  | fuel + 1, n =>
    if n < 2 ^ 64 then bitLenSmall 64 n else bitLenAux fuel (n / 2 ^ 64) + 64

/-- Bit length, exact below `2 ^ 2048` (far beyond the double range; a
larger argument only ever has to round to `Infinity`, which the capped
length still produces). -/
def bitLen (n : Nat) : Nat := bitLenAux 32 n

/-- Round a nonnegative integer to the nearest integer exactly
representable in binary64 (53 significand bits), ties to even. -/
def doubleRoundNat (v : Nat) : Nat :=
  if v < 2 ^ 53 then v
  else
    let k := bitLen v - 53
    let q := v / 2 ^ k
    let r := v % 2 ^ k
    if 2 * r > 2 ^ k ∨ (2 * r = 2 ^ k ∧ q % 2 = 1) then (q + 1) * 2 ^ k
    else q * 2 ^ k

/-- A JavaScript number of the fragment the script manipulates: `NaN`,
an infinity, or a finite double with an integer value (carried
exactly). -/
inductive JsNum where
  | nan
  | inf (neg : Bool)
  | num (n : Int)
  deriving DecidableEq

/-- The double nearest a nonnegative integer; `Infinity` past the
binary64 range. -/
def doubleOfNat (v : Nat) : JsNum :=
  let r := doubleRoundNat v
  if r < 2 ^ 1024 then JsNum.num r else JsNum.inf false

/-- The double nearest an integer (rounding is symmetric). -/
def doubleOfInt (v : Int) : JsNum :=
  if v < 0 then
    match doubleOfNat v.natAbs with
    | JsNum.num n => JsNum.num (-n)
    | JsNum.inf _ => JsNum.inf true
    | JsNum.nan => JsNum.nan
  else doubleOfNat v.natAbs

/-- Correctly rounded addition of a small integer constant, as in
`parseInt(nb, 10) + ((idx === 2) ? 1 : 0)`: `NaN` and the infinities
absorb, a finite integer double adds exactly and re-rounds. -/
def jsAdd (x : JsNum) (k : Int) : JsNum :=
  match x with
  | JsNum.nan => JsNum.nan
  | JsNum.inf s => JsNum.inf s
  | JsNum.num n => doubleOfInt (n + k)

/-- Among the multiples of `p` that round to the double value `m`, the
one closest to `m` (ties to the even multiple); `none` when no multiple
of `p` rounds to `m`.  The guard bounds the search: any `w` that rounds
to `m` satisfies `w ≤ 2 * m + 1`, so a larger `p` admits no candidate
(for `m = 0` the guard only prunes redundant spacings; the spacing `1`
still yields `0`). -/
def bestMultiple (m p : Nat) : Option Nat :=
  if 2 * m + 2 < p then none
  else
    let c1 := m / p * p
    let c2 := c1 + p
    if doubleRoundNat c1 = m then
      if doubleRoundNat c2 = m then
        if m - c1 < c2 - m then some c1
        else if c2 - m < m - c1 then some c2
        else if (c1 / p) % 2 = 0 then some c1 else some c2
      else some c1
    else if doubleRoundNat c2 = m then some c2
    else none

/-- The integer `s * 10 ^ (n - k)` of the ECMAScript `Number::toString`
characterisation for an integer double value `m`: the decimal with the
fewest significant digits (equivalently, the most trailing zeros) that
reads back as the same double, closest to `m` with ties to even.  The
exponent range 0–309 covers every finite double. -/
def jsShortestNat (m : Nat) : Nat :=
  (((List.range 310).reverse).filterMap (fun z => bestMultiple m (10 ^ z))).headD m

/-- The exponential rendering `d.ddd e+ (n-1)` JavaScript uses for
integer doubles at or above `10 ^ 21`. -/
def expForm (m : Nat) : List Char :=
  let ds := natToChars (jsShortestNat m)
  let sig := (ds.reverse.dropWhile (fun c => c = '0')).reverse
  (match sig with
   | [] => ['0']
   | [d] => [d]
   | d :: rest => d :: '.' :: rest)
  ++ 'e' :: '+' :: natToChars (ds.length - 1)

/-- JavaScript `String()` of a nonnegative integer double value: below
`10 ^ 21` the shortest significand padded with zeros (plain decimal),
above it the exponential form. -/
def jsRenderNat (m : Nat) : List Char :=
  if m < 10 ^ 21 then natToChars (jsShortestNat m) else expForm m

/-- JavaScript number-to-string conversion on the modelled fragment. -/
def jsNumToChars : JsNum → List Char
  | JsNum.nan => ['N', 'a', 'N']
  | JsNum.inf neg => if neg then ("-Infinity").data else ("Infinity").data
  | JsNum.num n =>
    if n < 0 then '-' :: jsRenderNat n.natAbs else jsRenderNat n.natAbs

/-- JavaScript `parseInt(s, 10)`: skip leading whitespace, accept an
optional sign, then read the longest run of decimal digits; `NaN` when
that run is empty (trailing garbage is ignored, exactly as in
JavaScript).  The digit run's mathematical value is rounded to the
nearest double. -/
def parseInt10 (l : List Char) : JsNum :=
  let l1 := l.dropWhile jsIsSpace
  let neg : Bool := decide (l1.head? = some '-')
  let plus : Bool := decide (l1.head? = some '+')
  let l2 := if neg || plus then l1.tail else l1
  let d := l2.takeWhile isDigitChar
  if d.isEmpty then JsNum.nan
  else if neg then doubleOfInt (-(digitsVal d : Int))
  else doubleOfInt (digitsVal d : Int)

/-! ## Version bump (`prepareRelease`, lines 219–224)

```js
const bumpedVersion = version
  .split(".")
  .map((nb, idx) => parseInt(nb, 10) + ((idx === 2) ? 1 : 0))
  .join(".");
```
`parseInt` yields a double or `NaN`; adding `1` or `0` keeps `NaN` as
`NaN`; `join` renders each element back to a string. -/

/-- The bumped version string computed by `prepareRelease`
(lines 219–224). -/
def bumpedVersion (version : String) : String :=
  ⟨List.intercalate ['.']
    (((jsSplitChar '.' version.data).enum).map
      (fun p => jsNumToChars (jsAdd (parseInt10 p.2) (if p.1 = 2 then 1 else 0))))⟩

example : bumpedVersion "1.2.3" = "1.2.4" := by decide
example : bumpedVersion "10.0.99" = "10.0.100" := by decide
example : bumpedVersion "x.y.z" = "NaN.NaN.NaN" := by decide
example : bumpedVersion "1.2" = "1.2" := by decide

/-- Canonical decimal rendering of a natural number as a `String`. -/
def natStr (n : Nat) : String := ⟨natToChars n⟩

/-! ## Lemmas about the string primitives -/

theorem jsSplitChar_ne_nil (sep : Char) (l : List Char) :
    jsSplitChar sep l ≠ [] := by
  induction l with
  | nil => simp [jsSplitChar]
  | cons c cs ih =>
    unfold jsSplitChar
    cases h : jsSplitChar sep cs with
    | nil => simp
    | cons h t => by_cases hc : c = sep <;> simp [hc]

theorem jsSplitChar_of_not_mem (sep : Char) (x : List Char) (h : sep ∉ x) :
    jsSplitChar sep x = [x] := by
  induction x with
  | nil => rfl
  | cons c cs ih =>
    have hc : ¬ (c = sep) := fun e => h (e ▸ List.mem_cons_self c cs)
    have hcs : sep ∉ cs := fun m => h (List.mem_cons_of_mem _ m)
    unfold jsSplitChar
    rw [ih hcs]
    simp [hc]

theorem jsSplitChar_cons (sep c : Char) (cs : List Char) :
    jsSplitChar sep (c :: cs) =
      match jsSplitChar sep cs with
      | [] => [[]]
      | h :: t => if c = sep then [] :: h :: t else (c :: h) :: t := rfl

theorem jsSplitChar_append (sep : Char) (x rest : List Char) (h : sep ∉ x) :
    jsSplitChar sep (x ++ sep :: rest) = x :: jsSplitChar sep rest := by
  induction x with
  | nil =>
    simp only [List.nil_append]
    rw [jsSplitChar_cons]
    cases hr : jsSplitChar sep rest with
    | nil => exact absurd hr (jsSplitChar_ne_nil sep rest)
    | cons a t => simp
  | cons c cs ih =>
    have hc : ¬ (c = sep) := fun e => h (e ▸ List.mem_cons_self c cs)
    have hcs : sep ∉ cs := fun m => h (List.mem_cons_of_mem _ m)
    simp only [List.cons_append]
    rw [jsSplitChar_cons, ih hcs]
    simp [hc]

theorem digitChar_toNat (d : Nat) (h : d < 10) : (digitChar d).toNat = 48 + d := by
  interval_cases d <;> rfl

theorem isDigitChar_digitChar (d : Nat) (h : d < 10) :
    isDigitChar (digitChar d) = true := by
  interval_cases d <;> rfl

theorem digitsVal_append_singleton (l : List Char) (c : Char) :
    digitsVal (l ++ [c]) = digitsVal l * 10 + (c.toNat - 48) := by
  simp [digitsVal, List.foldl_append]

theorem natToCharsAux_digits :
    ∀ f n, n ≤ f → ∀ c ∈ natToCharsAux f n, isDigitChar c = true := by
  intro f
  induction f with
  | zero =>
    intro n hn c hc
    interval_cases n
    simp [natToCharsAux] at hc
  | succ f ih =>
    intro n hn c hc
    by_cases h0 : n = 0
    · subst h0; simp [natToCharsAux] at hc
    · have hdiv : n / 10 ≤ f := by
        have := Nat.div_lt_self (Nat.pos_of_ne_zero h0) (by norm_num : 1 < 10)
        omega
      simp only [natToCharsAux, h0, if_false, List.mem_append, List.mem_singleton] at hc
      rcases hc with hc | hc
      · exact ih (n / 10) hdiv c hc
      · subst hc; exact isDigitChar_digitChar _ (Nat.mod_lt _ (by norm_num))

theorem digitsVal_natToCharsAux :
    ∀ f n, n ≤ f → digitsVal (natToCharsAux f n) = n := by
  intro f
  induction f with
  | zero =>
    intro n hn
    interval_cases n
    rfl
  | succ f ih =>
    intro n hn
    by_cases h0 : n = 0
    · subst h0; simp [natToCharsAux, digitsVal]
    · have hdiv : n / 10 ≤ f := by
        have := Nat.div_lt_self (Nat.pos_of_ne_zero h0) (by norm_num : 1 < 10)
        omega
      rw [natToCharsAux]
      simp only [h0, if_false]
      rw [digitsVal_append_singleton, ih (n / 10) hdiv,
        digitChar_toNat (n % 10) (Nat.mod_lt _ (by norm_num))]
      omega

theorem natToChars_digits (n : Nat) : ∀ c ∈ natToChars n, isDigitChar c = true := by
  unfold natToChars
  by_cases h : n = 0
  · subst h; intro c hc; simp at hc; subst hc; rfl
  · simp only [h, if_false]
    exact natToCharsAux_digits (n + 1) n (Nat.le_succ n)

theorem natToChars_ne_nil (n : Nat) : natToChars n ≠ [] := by
  unfold natToChars
  by_cases h : n = 0
  · simp [h]
  · simp only [h, if_false]
    rw [natToCharsAux]
    simp [h]

theorem digitsVal_natToChars (n : Nat) : digitsVal (natToChars n) = n := by
  unfold natToChars
  by_cases h : n = 0
  · simp [h, digitsVal]
  · simp only [h, if_false]
    exact digitsVal_natToCharsAux (n + 1) n (Nat.le_succ n)

theorem dot_not_mem_natToChars (n : Nat) : '.' ∉ natToChars n := by
  intro h
  have := natToChars_digits n '.' h
  simp [isDigitChar] at this

theorem jsIsSpace_of_digit (c : Char) (h : isDigitChar c = true) :
    jsIsSpace c = false := by
  by_cases h1 : c = ' '
  · subst h1; simp [isDigitChar] at h
  by_cases h2 : c = '\t'
  · subst h2; simp [isDigitChar] at h
  by_cases h3 : c = '\n'
  · subst h3; simp [isDigitChar] at h
  by_cases h4 : c = '\r'
  · subst h4; simp [isDigitChar] at h
  simp [jsIsSpace, h1, h2, h3, h4]

theorem ne_sign_of_digit (c : Char) (h : isDigitChar c = true) :
    ¬ (c = '-') ∧ ¬ (c = '+') := by
  constructor <;> intro e <;> (subst e; simp [isDigitChar] at h)

theorem takeWhile_all {p : Char → Bool} (l : List Char)
    (h : ∀ c ∈ l, p c = true) : l.takeWhile p = l := by
  induction l with
  | nil => rfl
  | cons c cs ih =>
    rw [List.takeWhile_cons]
    rw [h c (List.mem_cons_self c cs)]
    simp [ih (fun x hx => h x (List.mem_cons_of_mem _ hx))]

theorem mem_of_mem_dropWhile {p : Char → Bool} {l : List Char} {c : Char}
    (h : c ∈ l.dropWhile p) : c ∈ l := by
  induction l with
  | nil => simp at h
  | cons a t ih =>
    rw [List.dropWhile_cons] at h
    by_cases hp : p a = true
    · simp only [hp, if_true] at h
      exact List.mem_cons_of_mem _ (ih h)
    · simp only [hp, if_false] at h
      exact h

theorem mem_of_mem_tail {l : List Char} {c : Char} (h : c ∈ l.tail) : c ∈ l := by
  cases l with
  | nil => simp at h
  | cons a t => exact List.mem_cons_of_mem _ h

theorem parseInt10_all_digits (l : List Char) (hne : l ≠ [])
    (h : ∀ c ∈ l, isDigitChar c = true) :
    parseInt10 l = doubleOfInt (digitsVal l : Int) := by
  obtain ⟨c, cs, rfl⟩ : ∃ c cs, l = c :: cs := by
    cases l with
    | nil => exact absurd rfl hne
    | cons c cs => exact ⟨c, cs, rfl⟩
  have hc := h c (List.mem_cons_self c cs)
  have hsp := jsIsSpace_of_digit c hc
  have hsign := ne_sign_of_digit c hc
  have hdw : List.dropWhile jsIsSpace (c :: cs) = c :: cs := by
    rw [List.dropWhile_cons, hsp]
    simp
  unfold parseInt10
  rw [hdw]
  simp only [List.head?_cons, Option.some.injEq]
  rw [decide_eq_false hsign.1, decide_eq_false hsign.2]
  simp only [Bool.or_self, Bool.false_eq_true, if_false]
  rw [takeWhile_all _ h]
  simp

theorem doubleOfInt_coe (n : Nat) : doubleOfInt (n : Int) = doubleOfNat n := by
  unfold doubleOfInt
  rw [if_neg (not_lt.mpr (Int.natCast_nonneg n)), Int.natAbs_ofNat]

theorem parseInt10_natToChars (n : Nat) :
    parseInt10 (natToChars n) = doubleOfNat n := by
  rw [parseInt10_all_digits (natToChars n) (natToChars_ne_nil n) (natToChars_digits n),
    digitsVal_natToChars, doubleOfInt_coe]

theorem parseInt10_no_digits (l : List Char)
    (h : ∀ c ∈ l, isDigitChar c = false) : parseInt10 l = JsNum.nan := by
  have hsub1 : ∀ c ∈ l.dropWhile jsIsSpace, isDigitChar c = false := by
    intro c hc; exact h c (mem_of_mem_dropWhile hc)
  have hsub2 : ∀ c ∈ (l.dropWhile jsIsSpace).tail, isDigitChar c = false := by
    intro c hc; exact hsub1 c (mem_of_mem_tail hc)
  have htw : ∀ m : List Char, (∀ c ∈ m, isDigitChar c = false) →
      List.takeWhile isDigitChar m = [] := by
    intro m hm
    cases m with
    | nil => rfl
    | cons a t =>
      rw [List.takeWhile_cons, hm a (List.mem_cons_self a t)]
      simp
  unfold parseInt10
  dsimp only
  by_cases hsign : ((l.dropWhile jsIsSpace).head? = some '-')
  · rw [decide_eq_true hsign]
    simp only [Bool.true_or, if_true]
    rw [htw _ hsub2]
    simp
  · rw [decide_eq_false hsign]
    by_cases hplus : ((l.dropWhile jsIsSpace).head? = some '+')
    · rw [decide_eq_true hplus]
      simp only [Bool.false_or, if_true]
      rw [htw _ hsub2]
      simp
    · rw [decide_eq_false hplus]
      simp only [Bool.or_self, Bool.false_eq_true, if_false]
      rw [htw _ hsub1]
      simp

theorem natStr_data (n : Nat) : (natStr n).data = natToChars n := rfl

theorem intercalate_dot_three (x y z : List Char) :
    List.intercalate ['.'] [x, y, z] = x ++ '.' :: (y ++ '.' :: z) := by
  simp [List.intercalate, List.intersperse]

theorem version_data (x y z : List Char) :
    (String.mk x ++ "." ++ String.mk y ++ "." ++ String.mk z).data
      = x ++ '.' :: (y ++ '.' :: z) := by
  show (((x ++ ['.']) ++ y) ++ ['.']) ++ z = x ++ '.' :: (y ++ '.' :: z)
  simp

/-- `version.split "."` of a three-component dotted version. -/
theorem jsSplitChar_three (x y z : List Char)
    (hx : '.' ∉ x) (hy : '.' ∉ y) (hz : '.' ∉ z) :
    jsSplitChar '.' (x ++ '.' :: (y ++ '.' :: z)) = [x, y, z] := by
  rw [jsSplitChar_append _ _ _ hx, jsSplitChar_append _ _ _ hy,
    jsSplitChar_of_not_mem _ _ hz]

theorem intCast_succ (c : Nat) : ((c : Int) + 1) = ((c + 1 : Nat) : Int) := by
  push_cast
  ring

/-! ### Exactness of the double model below `2 ^ 53` -/

theorem bitLenSmall_bounds : ∀ fuel n, 0 < n → n < 2 ^ fuel →
    2 ^ (bitLenSmall fuel n - 1) ≤ n ∧ n < 2 ^ bitLenSmall fuel n := by
  intro fuel
  induction fuel with
  | zero =>
    intro n h1 h2
    simp at h2
    omega
  | succ f ih =>
    intro n h1 h2
    rw [show bitLenSmall (f + 1) n
        = if n = 0 then 0 else bitLenSmall f (n / 2) + 1 from rfl]
    rw [if_neg (by omega)]
    by_cases hn : n = 1
    · subst hn
      have hz : bitLenSmall f (1 / 2) = 0 := by
        cases f <;> rfl
      rw [show (1 : Nat) / 2 = 0 from rfl, hz]
      decide
    · have h2' : n / 2 < 2 ^ f := by
        rw [pow_succ] at h2
        omega
      have h1' : 0 < n / 2 := by omega
      obtain ⟨lo, hi⟩ := ih (n / 2) h1' h2'
      have hL1 : 1 ≤ bitLenSmall f (n / 2) := by
        rcases Nat.eq_zero_or_pos (bitLenSmall f (n / 2)) with h | h
        · rw [h] at hi
          simp at hi
          omega
        · exact h
      constructor
      · have e1 : 2 ^ (bitLenSmall f (n / 2) + 1 - 1)
            = 2 * 2 ^ (bitLenSmall f (n / 2) - 1) := by
          rw [← pow_succ']
          congr 1
          omega
        rw [e1]
        omega
      · rw [pow_succ]
        omega

theorem bitLenAux_bounds : ∀ fuel n, 0 < n → n < 2 ^ (64 * fuel) →
    2 ^ (bitLenAux fuel n - 1) ≤ n ∧ n < 2 ^ bitLenAux fuel n := by
  intro fuel
  induction fuel with
  | zero =>
    intro n h1 h2
    rw [Nat.mul_zero] at h2
    simp at h2
    omega
  | succ f ih =>
    intro n h1 h2
    rw [show bitLenAux (f + 1) n
        = if n < 2 ^ 64 then bitLenSmall 64 n else bitLenAux f (n / 2 ^ 64) + 64
        from rfl]
    by_cases hs : n < 2 ^ 64
    · rw [if_pos hs]
      exact bitLenSmall_bounds 64 n h1 hs
    · rw [if_neg hs]
      push_neg at hs
      have h2' : n / 2 ^ 64 < 2 ^ (64 * f) := by
        rw [Nat.div_lt_iff_lt_mul (by positivity), ← pow_add]
        calc n < 2 ^ (64 * (f + 1)) := h2
          _ = 2 ^ (64 * f + 64) := by ring_nf
      have h1' : 0 < n / 2 ^ 64 := Nat.div_pos hs (by positivity)
      obtain ⟨lo, hi⟩ := ih (n / 2 ^ 64) h1' h2'
      have hL1 : 1 ≤ bitLenAux f (n / 2 ^ 64) := by
        rcases Nat.eq_zero_or_pos (bitLenAux f (n / 2 ^ 64)) with h | h
        · rw [h] at hi
          simp at hi
          omega
        · exact h
      constructor
      · have e1 : 2 ^ (bitLenAux f (n / 2 ^ 64) + 64 - 1)
            = 2 ^ (bitLenAux f (n / 2 ^ 64) - 1) * 2 ^ 64 := by
          rw [← pow_add]
          congr 1
          omega
        have e2 : 2 ^ (bitLenAux f (n / 2 ^ 64) - 1) * 2 ^ 64
            ≤ (n / 2 ^ 64) * 2 ^ 64 := Nat.mul_le_mul_right _ lo
        have e3 : (n / 2 ^ 64) * 2 ^ 64 ≤ n := Nat.div_mul_le_self n (2 ^ 64)
        omega
      · have e1 : 2 ^ (bitLenAux f (n / 2 ^ 64) + 64)
            = 2 ^ bitLenAux f (n / 2 ^ 64) * 2 ^ 64 := pow_add 2 _ 64
        have hdm := Nat.div_add_mod n (2 ^ 64)
        have hml : n % 2 ^ 64 < 2 ^ 64 := Nat.mod_lt _ (by positivity)
        have e4 : (n / 2 ^ 64 + 1) * 2 ^ 64 = (n / 2 ^ 64) * 2 ^ 64 + 2 ^ 64 := by
          ring
        have e5 : (n / 2 ^ 64 + 1) * 2 ^ 64 ≤ 2 ^ bitLenAux f (n / 2 ^ 64) * 2 ^ 64 :=
          Nat.mul_le_mul_right _ hi
        omega

theorem bitLen_bounds (n : Nat) (h1 : 0 < n) (h2 : n < 2 ^ 2048) :
    2 ^ (bitLen n - 1) ≤ n ∧ n < 2 ^ bitLen n :=
  bitLenAux_bounds 32 n h1
    (by rw [show (64 * 32 : Nat) = 2048 from rfl]; exact h2)

theorem doubleRoundNat_small (v : Nat) (h : v ≤ 2 ^ 53) : doubleRoundNat v = v := by
  by_cases hlt : v < 2 ^ 53
  · unfold doubleRoundNat
    rw [if_pos hlt]
  · have : v = 2 ^ 53 := by omega
    subst this
    decide

theorem doubleRoundNat_ge (v : Nat) (h : 2 ^ 53 ≤ v) (h2 : v < 2 ^ 2048) :
    2 ^ 53 ≤ doubleRoundNat v := by
  unfold doubleRoundNat
  rw [if_neg (by omega)]
  have hvpos : 0 < v := by
    have : (0 : Nat) < 2 ^ 53 := by positivity
    omega
  obtain ⟨lo, hi⟩ := bitLen_bounds v hvpos h2
  have hb : 54 ≤ bitLen v := by
    have hlt : 2 ^ 53 < 2 ^ bitLen v := lt_of_le_of_lt h hi
    have := (Nat.pow_lt_pow_iff_right (by norm_num : 1 < 2)).mp hlt
    omega
  dsimp only
  have hq : 2 ^ 52 ≤ v / 2 ^ (bitLen v - 53) := by
    rw [Nat.le_div_iff_mul_le (by positivity), ← pow_add]
    calc 2 ^ (52 + (bitLen v - 53)) = 2 ^ (bitLen v - 1) := by congr 1; omega
      _ ≤ v := lo
  have hgoal : 2 ^ 53 ≤ v / 2 ^ (bitLen v - 53) * 2 ^ (bitLen v - 53) := by
    calc 2 ^ 53 ≤ 2 ^ (52 + (bitLen v - 53)) :=
          Nat.pow_le_pow_right (by norm_num) (by omega)
      _ = 2 ^ 52 * 2 ^ (bitLen v - 53) := pow_add 2 52 _
      _ ≤ v / 2 ^ (bitLen v - 53) * 2 ^ (bitLen v - 53) :=
          Nat.mul_le_mul_right _ hq
  by_cases hc : 2 * (v % 2 ^ (bitLen v - 53)) > 2 ^ (bitLen v - 53)
      ∨ (2 * (v % 2 ^ (bitLen v - 53)) = 2 ^ (bitLen v - 53)
          ∧ v / 2 ^ (bitLen v - 53) % 2 = 1)
  · rw [if_pos hc]
    have : v / 2 ^ (bitLen v - 53) * 2 ^ (bitLen v - 53)
        ≤ (v / 2 ^ (bitLen v - 53) + 1) * 2 ^ (bitLen v - 53) :=
      Nat.mul_le_mul_right _ (Nat.le_succ _)
    omega
  · rw [if_neg hc]
    exact hgoal

theorem doubleRoundNat_inj_small (m w : Nat) (hm : m < 2 ^ 53) (hw : w < 2 ^ 2048)
    (h : doubleRoundNat w = m) : w = m := by
  by_cases hlt : w < 2 ^ 53
  · rw [doubleRoundNat_small w (le_of_lt hlt)] at h
    exact h
  · exfalso
    have := doubleRoundNat_ge w (by omega) hw
    omega

theorem doubleOfNat_small (n : Nat) (h : n ≤ 2 ^ 53) :
    doubleOfNat n = JsNum.num (n : Int) := by
  unfold doubleOfNat
  dsimp only
  rw [doubleRoundNat_small n h, if_pos]
  have : (2 : Nat) ^ 53 < 2 ^ 1024 := by norm_num
  omega

theorem bestMultiple_small (m : Nat) (hm : m < 2 ^ 53) (p : Nat) (hp : 0 < p) :
    bestMultiple m p = none ∨ bestMultiple m p = some m := by
  unfold bestMultiple
  by_cases hg : 2 * m + 2 < p
  · rw [if_pos hg]
    exact Or.inl rfl
  · rw [if_neg hg]
    push_neg at hg
    dsimp only
    have hd : m / p * p ≤ m := Nat.div_mul_le_self m p
    have hbig : 3 * 2 ^ 53 + 2 < (2 : Nat) ^ 2048 := by norm_num
    have hc1w : m / p * p < 2 ^ 2048 := by omega
    have hc2w : m / p * p + p < 2 ^ 2048 := by omega
    by_cases h1 : doubleRoundNat (m / p * p) = m
    · have e1 : m / p * p = m := doubleRoundNat_inj_small m _ hm hc1w h1
      rw [if_pos h1]
      by_cases h2 : doubleRoundNat (m / p * p + p) = m
      · exfalso
        have e2 : m / p * p + p = m := doubleRoundNat_inj_small m _ hm hc2w h2
        omega
      · rw [if_neg h2, e1]
        exact Or.inr rfl
    · rw [if_neg h1]
      by_cases h2 : doubleRoundNat (m / p * p + p) = m
      · have e2 : m / p * p + p = m := doubleRoundNat_inj_small m _ hm hc2w h2
        rw [if_pos h2, e2]
        exact Or.inr rfl
      · rw [if_neg h2]
        exact Or.inl rfl

theorem headD_eq_of_all {L : List Nat} {m : Nat} (h : ∀ x ∈ L, x = m) :
    L.headD m = m := by
  cases L with
  | nil => rfl
  | cons a t => exact h a (List.mem_cons_self _ _)

theorem jsShortestNat_small (m : Nat) (hm : m ≤ 2 ^ 53) : jsShortestNat m = m := by
  by_cases hlt : m < 2 ^ 53
  · unfold jsShortestNat
    refine headD_eq_of_all ?_
    intro x hx
    obtain ⟨z, _, hbx⟩ := List.mem_filterMap.mp hx
    rcases bestMultiple_small m hlt (10 ^ z) (by positivity) with h | h
    · rw [h] at hbx
      cases hbx
    · rw [h] at hbx
      injection hbx with hbx
      exact hbx.symm
  · have : m = 2 ^ 53 := by omega
    subst this
    decide

theorem jsRenderNat_small (m : Nat) (h : m ≤ 2 ^ 53) :
    jsRenderNat m = natToChars m := by
  unfold jsRenderNat
  have hlt : (2 : Nat) ^ 53 < 10 ^ 21 := by norm_num
  rw [if_pos (by omega), jsShortestNat_small m h]

theorem jsNumToChars_coe (n : Nat) (h : n ≤ 2 ^ 53) :
    jsNumToChars (JsNum.num (n : Int)) = natToChars n := by
  simp only [jsNumToChars]
  rw [if_neg (not_lt.mpr (Int.natCast_nonneg n)), Int.natAbs_ofNat,
    jsRenderNat_small n h]

theorem jsAdd_num_zero (n : Nat) (h : n ≤ 2 ^ 53) :
    jsAdd (JsNum.num (n : Int)) 0 = JsNum.num (n : Int) := by
  show doubleOfInt ((n : Int) + 0) = _
  rw [Int.add_zero, doubleOfInt_coe, doubleOfNat_small n h]

theorem jsAdd_num_one (n : Nat) (h : n + 1 ≤ 2 ^ 53) :
    jsAdd (JsNum.num (n : Int)) 1 = JsNum.num ((n + 1 : Nat) : Int) := by
  show doubleOfInt ((n : Int) + 1) = _
  rw [intCast_succ, doubleOfInt_coe, doubleOfNat_small (n + 1) h]

/-- The version-bump behaviour §4.2/§7 of the specification describe:
integer-parse the three dotted components and fail (`none`, the spec's
`ManifestParseError`) when the version is malformed.  This definition
follows the spec's words; it exists only to be compared against
`bumpedVersion`, which is translated from the code. -/
def specVersionBump (version : String) : Option String :=
  match jsSplitChar '.' version.data with
  | [a, b, c] =>
    if a ≠ [] ∧ b ≠ [] ∧ c ≠ [] ∧ (∀ ch ∈ a ++ b ++ c, isDigitChar ch = true) then
      some ⟨a ++ '.' :: b ++ '.' :: natToChars (digitsVal c + 1)⟩
    else none
  | _ => none

/-- **C4 (amended).** The patch-only bump holds exactly on the range
where binary64 arithmetic is exact: for every version `a.b.c` with
integer components and `a`, `b`, `c + 1` at most `2 ^ 53`, the bumped
version computed by `prepareRelease` (lines 219–224) is exactly
`a.b.(c+1)` — the patch component is incremented by exactly 1 and the
major and minor components are unchanged, regardless of diff size or
content.  Beyond that range the increment can be silently lost (see the
counterexample), because `parseInt` and `+ 1` round to the nearest
double. -/
theorem claimC4_patch_only_bump (a b c : Nat)
    (ha : a ≤ 2 ^ 53) (hb : b ≤ 2 ^ 53) (hc : c + 1 ≤ 2 ^ 53) :
    bumpedVersion (natStr a ++ "." ++ natStr b ++ "." ++ natStr c)
      = natStr a ++ "." ++ natStr b ++ "." ++ natStr (c + 1) := by
  unfold bumpedVersion
  rw [show (natStr a ++ "." ++ natStr b ++ "." ++ natStr c)
      = String.mk (natToChars a) ++ "." ++ String.mk (natToChars b)
        ++ "." ++ String.mk (natToChars c) from rfl]
  rw [version_data, jsSplitChar_three _ _ _ (dot_not_mem_natToChars a)
    (dot_not_mem_natToChars b) (dot_not_mem_natToChars c)]
  simp only [List.enum, List.enumFrom, List.map]
  rw [show (natStr a ++ "." ++ natStr b ++ "." ++ natStr (c + 1))
      = String.mk (natToChars a) ++ "." ++ String.mk (natToChars b)
        ++ "." ++ String.mk (natToChars (c + 1)) from rfl]
  apply String.ext
  rw [version_data]
  simp only [parseInt10_natToChars]
  norm_num
  rw [doubleOfNat_small a ha, doubleOfNat_small b hb,
    doubleOfNat_small c (Nat.le_of_succ_le hc),
    jsAdd_num_zero a ha, jsAdd_num_zero b hb, jsAdd_num_one c hc,
    jsNumToChars_coe a ha, jsNumToChars_coe b hb, jsNumToChars_coe (c + 1) hc,
    intercalate_dot_three]

/-- Witness for C4 (amended): the bounds are satisfiable, e.g. by
`1.2.3`. -/
theorem claimC4_patch_only_bump_witness :
    (1 ≤ 2 ^ 53 ∧ 2 ≤ 2 ^ 53 ∧ 3 + 1 ≤ 2 ^ 53)
    ∧ bumpedVersion (natStr 1 ++ "." ++ natStr 2 ++ "." ++ natStr 3)
        = natStr 1 ++ "." ++ natStr 2 ++ "." ++ natStr (3 + 1) :=
  ⟨by decide,
   claimC4_patch_only_bump 1 2 3 (by decide) (by decide) (by decide)⟩

/-- **C4 counterexample.** The original claim — bump is `a.b.(c+1)` for
EVERY integer-component version — fails where binary64 loses precision:
at `c = 2 ^ 53` the `+ 1` rounds back (ties to even) and the version is
returned UNCHANGED, and at `c = 2 ^ 53 + 1` already `parseInt` rounds
down, so the "bumped" patch component is SMALLER than the original.
The specification's exact arithmetic (`specVersionBump`, §4.2) bumps
both. -/
theorem claimC4_counterexample :
    bumpedVersion "1.2.9007199254740992" = "1.2.9007199254740992"
    ∧ bumpedVersion "1.2.9007199254740993" = "1.2.9007199254740992"
    ∧ specVersionBump "1.2.9007199254740992" = some "1.2.9007199254740993"
    ∧ specVersionBump "1.2.9007199254740993" = some "1.2.9007199254740994" := by
  refine ⟨by decide, by decide, by decide, by decide⟩

/-! ## C6: behaviour on malformed versions -/

/-- **C6 counterexample.** On the malformed version `"x.y.z"` the code does
not fail with a ParseError: `bumpedVersion` silently returns the ordinary
string `"NaN.NaN.NaN"` (and on the two-component `"1.2"` it returns `"1.2"`
unchanged, bumping nothing), while the specification's version bump
(`specVersionBump`) rejects both inputs. -/
theorem claimC6_counterexample :
    bumpedVersion "x.y.z" = "NaN.NaN.NaN" ∧ specVersionBump "x.y.z" = none
      ∧ bumpedVersion "1.2" = "1.2" ∧ specVersionBump "1.2" = none := by
  refine ⟨by decide, by decide, by decide, by decide⟩

/-- **C6 (amended).** Malformed versions do not fail and are not detected:
for every version whose three dotted components contain no decimal digit
at all, the bump silently produces the string `"NaN.NaN.NaN"` (each
`parseInt` yields `NaN`, which propagates through the `+ 1` and is
rendered by `join`); no error of any kind is raised. -/
theorem claimC6_no_parse_error (x y z : List Char)
    (hx : '.' ∉ x ∧ ∀ ch ∈ x, isDigitChar ch = false)
    (hy : '.' ∉ y ∧ ∀ ch ∈ y, isDigitChar ch = false)
    (hz : '.' ∉ z ∧ ∀ ch ∈ z, isDigitChar ch = false) :
    bumpedVersion ⟨x ++ '.' :: (y ++ '.' :: z)⟩ = "NaN.NaN.NaN" := by
  unfold bumpedVersion
  rw [show (String.mk (x ++ '.' :: (y ++ '.' :: z))).data
      = x ++ '.' :: (y ++ '.' :: z) from rfl]
  rw [jsSplitChar_three _ _ _ hx.1 hy.1 hz.1]
  rw [show ([x, y, z].enum).map
        (fun p => jsNumToChars (jsAdd (parseInt10 p.2) (if p.1 = 2 then 1 else 0)))
      = [jsNumToChars (jsAdd (parseInt10 x) 0),
         jsNumToChars (jsAdd (parseInt10 y) 0),
         jsNumToChars (jsAdd (parseInt10 z) 1)] from rfl]
  rw [parseInt10_no_digits x hx.2, parseInt10_no_digits y hy.2,
    parseInt10_no_digits z hz.2]
  rw [intercalate_dot_three]
  decide

/-- Witness for C6 (amended): the hypotheses are satisfiable, e.g. by the
version `"x.y.z"`. -/
theorem claimC6_no_parse_error_witness :
    bumpedVersion ⟨['x'] ++ '.' :: (['y'] ++ '.' :: ['z'])⟩ = "NaN.NaN.NaN" :=
  claimC6_no_parse_error ['x'] ['y'] ['z']
    ⟨by decide, by decide⟩ ⟨by decide, by decide⟩ ⟨by decide, by decide⟩

/-! ## PR state reconciler (`prepareRelease`, lines 157–345)

`prepareRelease` is modelled as a pure function from the run's
environment — the values the script reads from git, npm, the filesystem
and the GitHub search — to the ordered list of Octokit gateway calls the
run issues.  Everything the script computes itself (diff rendering,
version bump, title, body, branch name, the decision booleans) is
translated from the source; responses of the gateway (file sha, commit
sha, default branch, created PR number) are environment fields. -/

/-- Repository owner (line 34). -/
def owner : String := "w3c"

/-- Repository name (line 35). -/
def repoName : String := "browser-specs"

/-- The open pre-release pull request, as used by the script: its number,
title, body and head branch name. -/
structure PendingPR where
  number : Nat
  title : String
  body : String
  headRef : String
  deriving DecidableEq

/-- One Octokit call, with the arguments the script passes. -/
inductive GatewayCall where
  | searchIssuesAndPullRequests (q : String)
  | pullsGet (number : Nat)
  | pullsUpdate (number : Nat) (title : Option String) (body : String)
      (state : Option String)
  | gitCreateRef (ref sha : String)
  | reposGetContent (path : String)
  | reposCreateOrUpdateFileContents (branch path message content sha : String)
  | gitUpdateRef (ref sha : String) (force : Bool)
  | gitDeleteRef (ref : String)
  | reposGet
  | pullsCreate (head base title body : String)
  deriving DecidableEq

/-- Whether a gateway call mutates remote state.  The four read-only calls
are the PR search, fetching a PR, reading a file and reading the
repository's metadata. -/
def GatewayCall.isMutating : GatewayCall → Bool
  | .searchIssuesAndPullRequests _ => false
  | .pullsGet _ => false
  | .reposGetContent _ => false
  | .reposGet => false
  | _ => true

/-- Whether a gateway call is a branch (ref) or commit (file write)
operation. -/
def GatewayCall.isBranchOrCommit : GatewayCall → Bool
  | .gitCreateRef _ _ => true
  | .reposCreateOrUpdateFileContents _ _ _ _ _ => true
  | .gitUpdateRef _ _ _ => true
  | .gitDeleteRef _ => true
  | _ => false

/-- Whether a gateway call creates a pull request. -/
def GatewayCall.isCreatePR : GatewayCall → Bool
  | .pullsCreate _ _ _ _ => true
  | _ => false

/-- The environment of one `prepareRelease` run: everything the script
reads from the outside world. -/
structure Env where
  /-- `git log -n 1 --pretty=…` on the current branch (line 162). -/
  latestCommitSha : String
  /-- The pending pre-release PR found by the search + `pulls.get`
  (lines 166–181); `none` when the search returned no item. -/
  pendingPR : Option PendingPR
  /-- The string returned by `computeDiff(name, folder)` (line 185). -/
  diff : String
  /-- Version of the released npm package, recorded by `computeDiff`
  (line 64) in a module-level variable. -/
  latestReleasedVersion : String
  /-- `require("../packages/<folder>/package.json").version` (line 219). -/
  version : String
  /-- The timestamp-derived unique id (line 159). -/
  uid : String
  /-- base64 of the re-serialised manifest with the bumped version
  (line 225). -/
  bumpedPackageContent : String
  /-- `sha` from the `repos.getContent` response (lines 275–277). -/
  fileSha : String
  /-- sha of the commit created by `createOrUpdateFileContents`
  (line 287). -/
  bumpedCommitSha : String
  /-- the repository's default branch (lines 336–337). -/
  defaultBranch : String
  /-- the number the gateway assigns to a PR created by `pulls.create`. -/
  newPRNumber : Nat
  deriving DecidableEq

/-- The search query of line 168. -/
def searchQuery (name : String) : String :=
  "repo:" ++ owner ++ "/" ++ repoName ++ " type:pr state:open head:release-" ++ name ++ "-"

/-- The PR title (line 231). -/
def prTitle (name version : String) : String :=
  "📦 Release " ++ name ++ "@" ++ version

/-- The PR body template (lines 232–247). -/
def prBody (name latestCommitSha latestReleasedVersion version diff : String) : String :=
  "\n**⚠ NEVER add commits to this pull request.**\n\n🤖 This pull request was automatically created to facilitate human review of `"
  ++ name
  ++ "` changes based on list of specs at "
  ++ latestCommitSha
  ++ ".\n\n🧐 Please review the diff below and version numbers. If all looks good, merge this pull request to release the changes to npm.\n\n📦 Latest released `"
  ++ name
  ++ "` package was **v"
  ++ latestReleasedVersion
  ++ "**. Merging this pull request will release **v"
  ++ version
  ++ "**. Make sure that the bump is the right one for the changes.\n\n✍ If any change needs to be made before release, **do not add a commit** to this pull request. Changes should rather be handled in a separate pull request and pushed to the main branch. You may leave this pull request open in the meantime, or close it. The pre-release job will automatically update this pull request or create a new one once the updates have made their way to the main branch.\n\n🛈 The actual change introduced by this pull request is a version bump in `packages/"
  ++ name
  ++ "/package.json`. You do not need to review that change. The bumped version is not the version that will be released when this pull request is merged, but rather the version that will be released next time.\n\n```diff\n"
  ++ diff
  ++ "\n```"

/-- The diff as rendered into the PR body: truncated with a notice when it
exceeds 60000 characters (lines 202–214). -/
def renderedDiff (diff : String) : String :=
  if diff.length > 60000 then
    "IMPORTANT:\n- Diff is too long to render in a PR description: "
      ++ natStr diff.length
      ++ " characters\n- First 60000 characters shown below\n- Check the action log for the full diff\n\n"
      ++ diff.take 60000
  else diff

/-- Body used when closing a no-longer-needed PR (line 193). -/
def closeBody : String :=
  "This pull request is no longer needed. No more diff to release."

/-- `prepareRelease(name, folder, dryRun)` (lines 157–345): the ordered
list of gateway calls the run issues, given its environment.

Faithful to the source, the `dryRun` guard covers only
`git.createRef` (line 259), the closing `pulls.update` (line 190),
`git.updateRef` (line 298) and `git.deleteRef` (line 307);
`repos.getContent`, `repos.createOrUpdateFileContents` (line 279),
the title/body `pulls.update` (line 327) and `pulls.create` (line 338)
are issued unconditionally. -/
def prepareRelease (name folder : String) (dryRun : Bool) (env : Env) :
    List GatewayCall :=
  let readCalls :=
    GatewayCall.searchIssuesAndPullRequests (searchQuery name) ::
      (match env.pendingPR with
       | some pr => [GatewayCall.pullsGet pr.number]
       | none => [])
  if env.diff = "" then
    readCalls ++
      (match env.pendingPR with
       | some pr =>
         if dryRun then []
         else [GatewayCall.pullsUpdate pr.number none closeBody (some "closed")]
       | none => [])
  else
    let diff := renderedDiff env.diff
    let bumped := bumpedVersion env.version
    let title := prTitle name env.version
    let body := prBody name env.latestCommitSha env.latestReleasedVersion env.version diff
    let prRef := "release-" ++ name ++ "-" ++ env.uid
    let commitBumped : Bool :=
      match env.pendingPR with
      | none => true
      | some pr => pr.title != title || pr.body != body
    let branchCalls :=
      if commitBumped then
        if dryRun then []
        else [GatewayCall.gitCreateRef ("refs/heads/" ++ prRef) env.latestCommitSha]
      else []
    let commitCalls :=
      if commitBumped then
        GatewayCall.reposGetContent ("packages/" ++ folder ++ "/package.json") ::
        GatewayCall.reposCreateOrUpdateFileContents prRef
          ("packages/" ++ folder ++ "/package.json")
          ("Bump " ++ name ++ " version from " ++ env.version ++ " to " ++ bumped)
          env.bumpedPackageContent env.fileSha ::
        (match env.pendingPR with
         | some pr =>
           (if dryRun then []
            else [GatewayCall.gitUpdateRef ("heads/" ++ pr.headRef)
                    env.bumpedCommitSha true]) ++
           (if dryRun then []
            else [GatewayCall.gitDeleteRef ("heads/" ++ prRef)])
         | none => [])
      else []
    let prCalls :=
      match env.pendingPR with
      | some pr =>
        if pr.title == title && pr.body == body then []
        else [GatewayCall.pullsUpdate pr.number (some title) body none]
      | none =>
        [GatewayCall.reposGet,
         GatewayCall.pullsCreate prRef env.defaultBranch title body]
    readCalls ++ branchCalls ++ commitCalls ++ prCalls

/-- The `(title, body)` pair a call writes into a pull request, when it
writes one: `pulls.update` with a title and no state change, or
`pulls.create`. -/
def GatewayCall.titleBodyWrite : GatewayCall → Option (String × String)
  | .pullsUpdate _ (some t) b none => some (t, b)
  | .pullsCreate _ _ t b => some (t, b)
  | _ => none

/-! ## C1: dry-run does not suppress every mutating call -/

/-- A run with a non-empty diff and no pending pre-release PR. -/
def envC1 : Env :=
  { latestCommitSha := "abc123", pendingPR := none, diff := "@@ a diff @@",
    latestReleasedVersion := "1.0.0", version := "1.0.1", uid := "20240101",
    bumpedPackageContent := "BASE64", fileSha := "f1", bumpedCommitSha := "c2",
    defaultBranch := "main", newPRNumber := 42 }

/-- Whether a gateway call is the file-committing
`repos.createOrUpdateFileContents`. -/
def GatewayCall.isFileCommit : GatewayCall → Bool
  | .reposCreateOrUpdateFileContents _ _ _ _ _ => true
  | _ => false

/-- **C1** (code bug, evaluation at the failing input).  A dry run with a
non-empty diff and no pending PR still issues exactly two mutating gateway
calls: the file commit (`repos.createOrUpdateFileContents`, line 279, not
guarded by `dryRun`) and the PR creation (`pulls.create`, line 338, not
guarded), contradicting the claim that dry-run issues zero mutating calls.
(The `git.createRef` it skipped would even make the unguarded file commit
fail against a real gateway, since its target branch was never created.) -/
theorem claimC1_dry_run_not_safe :
    ((prepareRelease "browser-specs" "browser-specs" true envC1).filter
        GatewayCall.isMutating).length = 2
    ∧ (prepareRelease "browser-specs" "browser-specs" true envC1).any
        GatewayCall.isFileCommit = true
    ∧ (prepareRelease "browser-specs" "browser-specs" true envC1).any
        GatewayCall.isCreatePR = true := by
  refine ⟨by decide, by decide, by decide⟩

/-! ## C5: an empty diff closes the pending PR and touches nothing else -/

/-- **C5.** Whenever the computed diff is empty: no branch or commit
operation is issued at all; with no pending PR the run performs only the
search (a no-op); with a pending PR, a live run issues exactly the search,
the PR fetch, and one `pulls.update` closing the PR with the explanatory
comment. -/
theorem claimC5_empty_diff_closes (name folder : String) (dryRun : Bool) (env : Env)
    (hdiff : env.diff = "") :
    ((prepareRelease name folder dryRun env).filter GatewayCall.isBranchOrCommit = [])
    ∧ (env.pendingPR = none →
        prepareRelease name folder dryRun env
          = [GatewayCall.searchIssuesAndPullRequests (searchQuery name)])
    ∧ (∀ pr, env.pendingPR = some pr → dryRun = false →
        prepareRelease name folder dryRun env
          = [GatewayCall.searchIssuesAndPullRequests (searchQuery name),
             GatewayCall.pullsGet pr.number,
             GatewayCall.pullsUpdate pr.number none closeBody (some "closed")]) := by
  refine ⟨?_, ?_, ?_⟩
  · cases hp : env.pendingPR with
    | none => simp [prepareRelease, hdiff, hp, GatewayCall.isBranchOrCommit]
    | some pr =>
      cases dryRun <;>
        simp [prepareRelease, hdiff, hp, GatewayCall.isBranchOrCommit]
  · intro hp
    simp [prepareRelease, hdiff, hp]
  · intro pr hp hdr
    subst hdr
    simp [prepareRelease, hdiff, hp]

/-- Witness for C5 at a concrete environment. -/
def envC5 : Env :=
  { latestCommitSha := "sha0", pendingPR := some ⟨7, "t", "b", "release-web-specs-1"⟩,
    diff := "", latestReleasedVersion := "1.0.0", version := "1.0.0", uid := "u",
    bumpedPackageContent := "pc", fileSha := "f", bumpedCommitSha := "bc",
    defaultBranch := "main", newPRNumber := 9 }

/-- Witness for C5: a live run over a concrete environment with an empty
diff and a pending PR issues exactly the search, the fetch, and the
closing update. -/
theorem claimC5_empty_diff_closes_witness :
    prepareRelease "web-specs" "web-specs" false envC5
      = [GatewayCall.searchIssuesAndPullRequests (searchQuery "web-specs"),
         GatewayCall.pullsGet 7,
         GatewayCall.pullsUpdate 7 none closeBody (some "closed")] :=
  (claimC5_empty_diff_closes "web-specs" "web-specs" false envC5 rfl).2.2
    ⟨7, "t", "b", "release-web-specs-1"⟩ rfl rfl

/-! ## Trace shape lemmas for live runs with a non-empty diff -/

theorem bne_or_of_not_and {s1 t1 s2 t2 : String}
    (h : ¬ (s1 = t1 ∧ s2 = t2)) : (s1 != t1 || s2 != t2) = true := by
  by_cases h1 : s1 = t1
  · have h2 : s2 ≠ t2 := fun h2 => h ⟨h1, h2⟩
    simp [h2]
  · simp [h1]

theorem beq_and_eq_false_of_not_and {s1 t1 s2 t2 : String}
    (h : ¬ (s1 = t1 ∧ s2 = t2)) : (s1 == t1 && s2 == t2) = false := by
  by_cases h1 : s1 = t1
  · have h2 : s2 ≠ t2 := fun h2 => h ⟨h1, h2⟩
    simp [h2]
  · simp [h1]

/-- Live run, non-empty diff, no pending PR: branch creation, file commit,
PR creation. -/
theorem prepareRelease_none_live (name folder : String) (env : Env)
    (hp : env.pendingPR = none) (hdiff : env.diff ≠ "") :
    prepareRelease name folder false env
      = [GatewayCall.searchIssuesAndPullRequests (searchQuery name),
         GatewayCall.gitCreateRef
           ("refs/heads/" ++ ("release-" ++ name ++ "-" ++ env.uid))
           env.latestCommitSha,
         GatewayCall.reposGetContent ("packages/" ++ folder ++ "/package.json"),
         GatewayCall.reposCreateOrUpdateFileContents
           ("release-" ++ name ++ "-" ++ env.uid)
           ("packages/" ++ folder ++ "/package.json")
           ("Bump " ++ name ++ " version from " ++ env.version ++ " to "
             ++ bumpedVersion env.version)
           env.bumpedPackageContent env.fileSha,
         GatewayCall.reposGet,
         GatewayCall.pullsCreate ("release-" ++ name ++ "-" ++ env.uid)
           env.defaultBranch (prTitle name env.version)
           (prBody name env.latestCommitSha env.latestReleasedVersion env.version
             (renderedDiff env.diff))] := by
  unfold prepareRelease
  rw [hp]
  simp [hdiff]

/-- Live run, non-empty diff, pending PR whose title or body differs from
the computed one: branch creation, file commit, force-move of the PR
branch, scratch-branch deletion, PR title/body update. -/
theorem prepareRelease_changed_live (name folder : String) (env : Env)
    (pr : PendingPR) (hp : env.pendingPR = some pr) (hdiff : env.diff ≠ "")
    (hne : ¬ (pr.title = prTitle name env.version
      ∧ pr.body = prBody name env.latestCommitSha env.latestReleasedVersion
          env.version (renderedDiff env.diff))) :
    prepareRelease name folder false env
      = [GatewayCall.searchIssuesAndPullRequests (searchQuery name),
         GatewayCall.pullsGet pr.number,
         GatewayCall.gitCreateRef
           ("refs/heads/" ++ ("release-" ++ name ++ "-" ++ env.uid))
           env.latestCommitSha,
         GatewayCall.reposGetContent ("packages/" ++ folder ++ "/package.json"),
         GatewayCall.reposCreateOrUpdateFileContents
           ("release-" ++ name ++ "-" ++ env.uid)
           ("packages/" ++ folder ++ "/package.json")
           ("Bump " ++ name ++ " version from " ++ env.version ++ " to "
             ++ bumpedVersion env.version)
           env.bumpedPackageContent env.fileSha,
         GatewayCall.gitUpdateRef ("heads/" ++ pr.headRef) env.bumpedCommitSha true,
         GatewayCall.gitDeleteRef ("heads/" ++ ("release-" ++ name ++ "-" ++ env.uid)),
         GatewayCall.pullsUpdate pr.number (some (prTitle name env.version))
           (prBody name env.latestCommitSha env.latestReleasedVersion env.version
             (renderedDiff env.diff))
           none] := by
  unfold prepareRelease
  rw [hp]
  simp [hdiff, bne_or_of_not_and hne, beq_and_eq_false_of_not_and hne]

/-- When the pending PR's title and body are byte-equal to the freshly
computed ones, a live run issues no call beyond the search and the PR
fetch. -/
theorem no_mutating_of_byte_equal (name folder : String) (env : Env)
    (pr : PendingPR) (hpr : env.pendingPR = some pr) (hdiff : env.diff ≠ "")
    (ht : pr.title = prTitle name env.version)
    (hb : pr.body = prBody name env.latestCommitSha env.latestReleasedVersion
        env.version (renderedDiff env.diff)) :
    prepareRelease name folder false env
      = [GatewayCall.searchIssuesAndPullRequests (searchQuery name),
         GatewayCall.pullsGet pr.number] := by
  unfold prepareRelease
  rw [hpr]
  simp [hdiff, ht, hb]

/-! ## C2: byte-equality of title/body and idempotence -/

/-- **C2.** Byte-equality of the pending PR's title and body against the
freshly computed title and body is the sole criterion for "no update
needed": (a) a live run with a non-empty diff and a pending PR performs
zero mutating calls iff title and body are both byte-equal; (b) every call
of such a run that writes a PR title/body writes exactly the freshly
computed pair; (c) consequently a second run in succession — its pending
PR carrying that computed pair, repository inputs unchanged — computes
byte-identical title/body and performs zero mutating calls. -/
theorem claimC2_byte_equality_idempotence (name folder : String) (env : Env)
    (hdiff : env.diff ≠ "") :
    (∀ pr, env.pendingPR = some pr →
      ((pr.title = prTitle name env.version
        ∧ pr.body = prBody name env.latestCommitSha env.latestReleasedVersion
            env.version (renderedDiff env.diff))
       ↔ (prepareRelease name folder false env).filter GatewayCall.isMutating = []))
    ∧
    (∀ c ∈ prepareRelease name folder false env, ∀ t b,
       c.titleBodyWrite = some (t, b) →
       t = prTitle name env.version
       ∧ b = prBody name env.latestCommitSha env.latestReleasedVersion
           env.version (renderedDiff env.diff))
    ∧
    (∀ env2 : Env, ∀ p2 : PendingPR,
       env2.pendingPR = some p2 →
       p2.title = prTitle name env.version →
       p2.body = prBody name env.latestCommitSha env.latestReleasedVersion
           env.version (renderedDiff env.diff) →
       env2.latestCommitSha = env.latestCommitSha →
       env2.diff = env.diff →
       env2.version = env.version →
       env2.latestReleasedVersion = env.latestReleasedVersion →
       (prTitle name env2.version = prTitle name env.version
        ∧ prBody name env2.latestCommitSha env2.latestReleasedVersion env2.version
            (renderedDiff env2.diff)
          = prBody name env.latestCommitSha env.latestReleasedVersion env.version
              (renderedDiff env.diff)
        ∧ (prepareRelease name folder false env2).filter GatewayCall.isMutating
            = [])) := by
  refine ⟨?_, ?_, ?_⟩
  · intro pr hpr
    constructor
    · intro hbe
      rw [no_mutating_of_byte_equal name folder env pr hpr hdiff hbe.1 hbe.2]
      rfl
    · intro hfil
      by_contra hne
      rw [prepareRelease_changed_live name folder env pr hpr hdiff hne] at hfil
      simp [GatewayCall.isMutating] at hfil
  · intro c hc t b hw
    cases hp : env.pendingPR with
    | none =>
      rw [prepareRelease_none_live name folder env hp hdiff] at hc
      simp only [List.mem_cons, List.not_mem_nil, or_false] at hc
      rcases hc with hc | hc | hc | hc | hc | hc <;> subst hc
      · simp [GatewayCall.titleBodyWrite] at hw
      · simp [GatewayCall.titleBodyWrite] at hw
      · simp [GatewayCall.titleBodyWrite] at hw
      · simp [GatewayCall.titleBodyWrite] at hw
      · simp [GatewayCall.titleBodyWrite] at hw
      · simp [GatewayCall.titleBodyWrite] at hw
        exact ⟨hw.1.symm, hw.2.symm⟩
    | some pr =>
      by_cases hbe : pr.title = prTitle name env.version
        ∧ pr.body = prBody name env.latestCommitSha env.latestReleasedVersion
            env.version (renderedDiff env.diff)
      · rw [no_mutating_of_byte_equal name folder env pr hp hdiff hbe.1 hbe.2] at hc
        simp only [List.mem_cons, List.not_mem_nil, or_false] at hc
        rcases hc with hc | hc <;> subst hc <;>
          simp [GatewayCall.titleBodyWrite] at hw
      · rw [prepareRelease_changed_live name folder env pr hp hdiff hbe] at hc
        simp only [List.mem_cons, List.not_mem_nil, or_false] at hc
        rcases hc with hc | hc | hc | hc | hc | hc | hc | hc <;> subst hc
        · simp [GatewayCall.titleBodyWrite] at hw
        · simp [GatewayCall.titleBodyWrite] at hw
        · simp [GatewayCall.titleBodyWrite] at hw
        · simp [GatewayCall.titleBodyWrite] at hw
        · simp [GatewayCall.titleBodyWrite] at hw
        · simp [GatewayCall.titleBodyWrite] at hw
        · simp [GatewayCall.titleBodyWrite] at hw
        · simp [GatewayCall.titleBodyWrite] at hw
          exact ⟨hw.1.symm, hw.2.symm⟩
  · intro env2 p2 hp2 ht2 hb2 hsha2 hdiff2 hver2 hlrv2
    have htitle : prTitle name env2.version = prTitle name env.version := by
      rw [hver2]
    have hbody : prBody name env2.latestCommitSha env2.latestReleasedVersion
        env2.version (renderedDiff env2.diff)
        = prBody name env.latestCommitSha env.latestReleasedVersion env.version
            (renderedDiff env.diff) := by
      rw [hsha2, hdiff2, hver2, hlrv2]
    refine ⟨htitle, hbody, ?_⟩
    rw [no_mutating_of_byte_equal name folder env2 p2 hp2
      (by rw [hdiff2]; exact hdiff)
      (by rw [htitle]; exact ht2)
      (by rw [hbody]; exact hb2)]
    rfl

/-- Witness environment for C2: a pending PR whose title and body are
byte-equal to the freshly computed ones. -/
def prC2 : PendingPR :=
  { number := 3, title := prTitle "web-specs" "2.1.0",
    body := prBody "web-specs" "sha1" "2.0.9" "2.1.0" (renderedDiff "d"),
    headRef := "release-web-specs-x" }

def envC2 : Env :=
  { latestCommitSha := "sha1", pendingPR := some prC2, diff := "d",
    latestReleasedVersion := "2.0.9", version := "2.1.0", uid := "u2",
    bumpedPackageContent := "bp", fileSha := "fs", bumpedCommitSha := "bc",
    defaultBranch := "main", newPRNumber := 10 }

/-- Witness for C2: at a concrete byte-equal environment a live run
performs zero mutating calls. -/
theorem claimC2_byte_equality_idempotence_witness :
    (prepareRelease "web-specs" "web-specs" false envC2).filter
        GatewayCall.isMutating = [] :=
  ((claimC2_byte_equality_idempotence "web-specs" "web-specs" envC2
      (by decide)).1 prC2 rfl).mp ⟨rfl, rfl⟩

/-! ## C3: at most one open pre-release PR per package -/

/-- Effect of one gateway call on the number of open pre-release PRs of
this package: `pulls.create` opens one, a `pulls.update` carrying
`state: "closed"` closes one, nothing else changes it. -/
def applyOpenCount (n : Nat) : GatewayCall → Nat
  | .pullsCreate _ _ _ _ => n + 1
  | .pullsUpdate _ _ _ (some st) => if st = "closed" then n - 1 else n
  | _ => n

/-- Number of open pre-release PRs after a list of gateway calls. -/
def runOpenCount (n : Nat) (calls : List GatewayCall) : Nat :=
  calls.foldl applyOpenCount n

theorem applyOpenCount_le (n : Nat) (c : GatewayCall) :
    applyOpenCount n c ≤ n + (if c.isCreatePR then 1 else 0) := by
  cases c with
  | pullsUpdate num t b st =>
    cases st with
    | none => simp [applyOpenCount, GatewayCall.isCreatePR]
    | some s =>
      by_cases hs : s = "closed" <;>
        simp [applyOpenCount, GatewayCall.isCreatePR, hs]
  | searchIssuesAndPullRequests q => simp [applyOpenCount, GatewayCall.isCreatePR]
  | pullsGet num => simp [applyOpenCount, GatewayCall.isCreatePR]
  | gitCreateRef r s => simp [applyOpenCount, GatewayCall.isCreatePR]
  | reposGetContent p => simp [applyOpenCount, GatewayCall.isCreatePR]
  | reposCreateOrUpdateFileContents a b c d e =>
    simp [applyOpenCount, GatewayCall.isCreatePR]
  | gitUpdateRef r s f => simp [applyOpenCount, GatewayCall.isCreatePR]
  | gitDeleteRef r => simp [applyOpenCount, GatewayCall.isCreatePR]
  | reposGet => simp [applyOpenCount, GatewayCall.isCreatePR]
  | pullsCreate h b t bo => simp [applyOpenCount, GatewayCall.isCreatePR]

theorem runOpenCount_le (calls : List GatewayCall) :
    ∀ n, runOpenCount n calls ≤ n + (calls.filter GatewayCall.isCreatePR).length := by
  induction calls with
  | nil => intro n; simp [runOpenCount]
  | cons c rest ih =>
    intro n
    have h1 := applyOpenCount_le n c
    have h2 := ih (applyOpenCount n c)
    rw [runOpenCount] at h2 ⊢
    simp only [List.foldl_cons]
    have h3 : n + (if c.isCreatePR then 1 else 0)
          + (rest.filter GatewayCall.isCreatePR).length
        = n + ((c :: rest).filter GatewayCall.isCreatePR).length := by
      by_cases hc : c.isCreatePR
      · simp [List.filter_cons, hc]
        omega
      · simp [List.filter_cons, hc]
    omega

/-- In every run, `pulls.create` is issued only when the search found no
pending PR, and then at most once. -/
theorem prepareRelease_filter_createPR (name folder : String) (dryRun : Bool)
    (env : Env) :
    (prepareRelease name folder dryRun env).filter GatewayCall.isCreatePR
      = match env.pendingPR with
        | some _ => []
        | none =>
          if env.diff = "" then []
          else [GatewayCall.pullsCreate ("release-" ++ name ++ "-" ++ env.uid)
                  env.defaultBranch (prTitle name env.version)
                  (prBody name env.latestCommitSha env.latestReleasedVersion
                    env.version (renderedDiff env.diff))] := by
  cases hp : env.pendingPR with
  | none =>
    by_cases hdiff : env.diff = ""
    · simp [prepareRelease, hp, hdiff, GatewayCall.isCreatePR]
    · cases dryRun <;>
        simp [prepareRelease, hp, hdiff, GatewayCall.isCreatePR]
  | some pr =>
    by_cases hdiff : env.diff = ""
    · cases dryRun <;>
        simp [prepareRelease, hp, hdiff, GatewayCall.isCreatePR]
    · cases dryRun <;>
        simp [prepareRelease, hp, hdiff, GatewayCall.isCreatePR,
          List.filter_append, apply_ite (List.filter GatewayCall.isCreatePR)]

/-- **C3.** At most one open pre-release PR exists per package at all
times: provided the search faithfully reports an existing open PR
(`pendingPR = none` iff no open pre-release PR exists) and at most one is
open before the run, then after every prefix of the run's calls at most
one is open; moreover when a pending PR was found the run issues no
`pulls.create` at all (it reuses/updates the found PR). -/
theorem claimC3_single_open_pr (name folder : String) (dryRun : Bool) (env : Env)
    (openPRs : Nat) (hopen : openPRs ≤ 1)
    (hfaith : env.pendingPR = none ↔ openPRs = 0) :
    (∀ k, runOpenCount openPRs ((prepareRelease name folder dryRun env).take k) ≤ 1)
    ∧ (env.pendingPR ≠ none →
        (prepareRelease name folder dryRun env).filter GatewayCall.isCreatePR
          = []) := by
  have hlen : ((prepareRelease name folder dryRun env).filter
      GatewayCall.isCreatePR).length ≤ (if env.pendingPR = none then 1 else 0) := by
    rw [prepareRelease_filter_createPR]
    cases hp : env.pendingPR with
    | none =>
      by_cases hdiff : env.diff = "" <;> simp [hdiff]
    | some pr => simp
  constructor
  · intro k
    have h1 := runOpenCount_le ((prepareRelease name folder dryRun env).take k) openPRs
    have h2 : (((prepareRelease name folder dryRun env).take k).filter
          GatewayCall.isCreatePR).length
        ≤ ((prepareRelease name folder dryRun env).filter
            GatewayCall.isCreatePR).length :=
      List.Sublist.length_le
        (List.Sublist.filter _ (List.take_sublist k _))
    cases hp : env.pendingPR with
    | none =>
      have h0 : openPRs = 0 := hfaith.mp hp
      rw [hp, if_pos rfl] at hlen
      omega
    | some pr =>
      rw [hp, if_neg (by simp)] at hlen
      omega
  · intro hne
    cases hp : env.pendingPR with
    | none => exact absurd hp hne
    | some pr =>
      rw [prepareRelease_filter_createPR, hp]

/-- Witness environment for C3: a pending PR exists and a non-empty diff
is computed. -/
def envC3 : Env :=
  { latestCommitSha := "sha3", pendingPR := some ⟨5, "old title", "old body", "release-web-specs-9"⟩,
    diff := "dd", latestReleasedVersion := "3.0.0", version := "3.0.1", uid := "u3",
    bumpedPackageContent := "bp3", fileSha := "fs3", bumpedCommitSha := "bc3",
    defaultBranch := "main", newPRNumber := 11 }

/-- Witness for C3: with one PR already open and found by the search, the
run issues no `pulls.create`. -/
theorem claimC3_single_open_pr_witness :
    (prepareRelease "web-specs" "web-specs" false envC3).filter
        GatewayCall.isCreatePR = [] :=
  (claimC3_single_open_pr "web-specs" "web-specs" false envC3 1 (by decide)
    (by decide)).2 (by decide)

/-! ## C10: the body embeds the HEAD sha, so any new commit forces the
full rebase sequence -/

theorem data_append (s t : String) : (s ++ t).data = s.data ++ t.data := rfl

set_option maxRecDepth 8192 in
/-- The PR body determines the embedded commit sha: bodies computed for
different shas (all other inputs equal) are different strings. -/
theorem prBody_sha_injective (name lrv v d s1 s2 : String)
    (h : prBody name s1 lrv v d = prBody name s2 lrv v d) : s1 = s2 := by
  have hd := congrArg String.data h
  simp only [prBody, data_append, List.append_assoc] at hd
  have h1 := List.append_cancel_left hd
  have h2 := List.append_cancel_left h1
  have h3 := List.append_cancel_left h2
  exact String.ext (List.append_cancel_right h3)

/-- **C10.** The computed PR body embeds the repository's current HEAD
commit sha, so whenever a pending pre-release PR's body was generated at
an older HEAD (`shaOld ≠` the current sha) — even with the same diff text
and version — the byte-equality test fails and a live run executes the
full sequence: scratch-branch creation, version-bump file commit,
force-move of the PR branch, scratch-branch deletion, and PR update. -/
theorem claimC10_any_commit_forces_rebase (name folder : String) (env : Env)
    (pr : PendingPR) (shaOld : String)
    (hpr : env.pendingPR = some pr) (hdiff : env.diff ≠ "")
    (ht : pr.title = prTitle name env.version)
    (hb : pr.body = prBody name shaOld env.latestReleasedVersion env.version
        (renderedDiff env.diff))
    (hsha : shaOld ≠ env.latestCommitSha) :
    prepareRelease name folder false env
      = [GatewayCall.searchIssuesAndPullRequests (searchQuery name),
         GatewayCall.pullsGet pr.number,
         GatewayCall.gitCreateRef
           ("refs/heads/" ++ ("release-" ++ name ++ "-" ++ env.uid))
           env.latestCommitSha,
         GatewayCall.reposGetContent ("packages/" ++ folder ++ "/package.json"),
         GatewayCall.reposCreateOrUpdateFileContents
           ("release-" ++ name ++ "-" ++ env.uid)
           ("packages/" ++ folder ++ "/package.json")
           ("Bump " ++ name ++ " version from " ++ env.version ++ " to "
             ++ bumpedVersion env.version)
           env.bumpedPackageContent env.fileSha,
         GatewayCall.gitUpdateRef ("heads/" ++ pr.headRef) env.bumpedCommitSha true,
         GatewayCall.gitDeleteRef ("heads/" ++ ("release-" ++ name ++ "-" ++ env.uid)),
         GatewayCall.pullsUpdate pr.number (some (prTitle name env.version))
           (prBody name env.latestCommitSha env.latestReleasedVersion env.version
             (renderedDiff env.diff))
           none] := by
  have hne : ¬ (pr.title = prTitle name env.version
      ∧ pr.body = prBody name env.latestCommitSha env.latestReleasedVersion
          env.version (renderedDiff env.diff)) := by
    rintro ⟨-, h2⟩
    rw [hb] at h2
    exact hsha (prBody_sha_injective name env.latestReleasedVersion env.version
      (renderedDiff env.diff) shaOld env.latestCommitSha h2)
  exact prepareRelease_changed_live name folder env pr hpr hdiff hne

/-- Witness data for C10: a pending PR whose body was generated at the
older head `shaOLD`, while the repository is now at `shaNEW`; diff text
and version unchanged. -/
def prC10 : PendingPR :=
  { number := 21, title := prTitle "web-specs" "3.1.4",
    body := prBody "web-specs" "shaOLD" "3.1.3" "3.1.4" (renderedDiff "dd"),
    headRef := "release-web-specs-old" }

def envC10 : Env :=
  { latestCommitSha := "shaNEW", pendingPR := some prC10, diff := "dd",
    latestReleasedVersion := "3.1.3", version := "3.1.4", uid := "u10",
    bumpedPackageContent := "bp10", fileSha := "fs10", bumpedCommitSha := "bc10",
    defaultBranch := "main", newPRNumber := 22 }

/-- Witness for C10: at the concrete environment the full rebase sequence
is executed. -/
theorem claimC10_any_commit_forces_rebase_witness :
    prepareRelease "web-specs" "web-specs" false envC10
      = [GatewayCall.searchIssuesAndPullRequests (searchQuery "web-specs"),
         GatewayCall.pullsGet prC10.number,
         GatewayCall.gitCreateRef
           ("refs/heads/" ++ ("release-" ++ "web-specs" ++ "-" ++ envC10.uid))
           envC10.latestCommitSha,
         GatewayCall.reposGetContent ("packages/" ++ "web-specs" ++ "/package.json"),
         GatewayCall.reposCreateOrUpdateFileContents
           ("release-" ++ "web-specs" ++ "-" ++ envC10.uid)
           ("packages/" ++ "web-specs" ++ "/package.json")
           ("Bump " ++ "web-specs" ++ " version from " ++ envC10.version ++ " to "
             ++ bumpedVersion envC10.version)
           envC10.bumpedPackageContent envC10.fileSha,
         GatewayCall.gitUpdateRef ("heads/" ++ prC10.headRef)
           envC10.bumpedCommitSha true,
         GatewayCall.gitDeleteRef
           ("heads/" ++ ("release-" ++ "web-specs" ++ "-" ++ envC10.uid)),
         GatewayCall.pullsUpdate prC10.number
           (some (prTitle "web-specs" envC10.version))
           (prBody "web-specs" envC10.latestCommitSha envC10.latestReleasedVersion
             envC10.version (renderedDiff envC10.diff))
           none] :=
  claimC10_any_commit_forces_rebase "web-specs" "web-specs" envC10 prC10 "shaOLD"
    rfl (by decide) rfl rfl (by decide)

/-! ## The diff engine: `computeDiff` (lines 56–146)

`computeDiff` installs the published package into a fresh temp directory,
runs the external `diff` tool, and post-processes its output with a chain
of string replacements.  The external world (mkdtemp, npm, GNU diff) is
the environment: a `DiffEnv` carries the temp-directory suffix, the
success of the external commands, and the structural content differences
the diff tool reports.  Everything from line 85 on — extraction of
`Only in` lines, the `-n` strip, the temp-path and timestamp
normalisation, the reassembly and the prepended file lists — is
translated from the source. -/

/-- Split a string into its lines (the `m` flag of the source's per-line
regexes anchors `^`/`$` at these). -/
def splitLines (l : List Char) : List (List Char) := jsSplitChar '\n' l

/-- Join lines with newlines (inverse of `splitLines` for newline-free
lines). -/
def joinLines : List (List Char) → List Char
  | [] => []
  | [l] => l
  | l :: l2 :: rest => l ++ '\n' :: joinLines (l2 :: rest)

/-- Whether `pat` occurs as a contiguous substring of `l`. -/
def occursIn (pat l : List Char) : Bool :=
  (List.range (l.length + 1)).any (fun p => pat.isPrefixOf (l.drop p))

/-- Global left-to-right literal replacement, as
`str.replace(new RegExp(escapedLiteral, "g"), rep)` (line 114; the escaped
temp-folder path contains no regex metacharacters on the modelled POSIX
paths).  Fuel-structured; `l.length + 1` fuel suffices. -/
def replaceAllAux (pat rep : List Char) : Nat → List Char → List Char
  | 0, l => l
  | _ + 1, [] => []
  | fuel + 1, c :: rest =>
    if pat ≠ [] ∧ pat.isPrefixOf (c :: rest) then
      rep ++ replaceAllAux pat rep fuel ((c :: rest).drop pat.length)
    else c :: replaceAllAux pat rep fuel rest

def replaceAll (pat rep l : List Char) : List Char :=
  replaceAllAux pat rep (l.length + 1) l

/-- The capture of the per-line regex `^Only in <dir>: (.*)$` (lines 87,
91): the rest of the line when it starts with `"Only in " ++ dir ++ ": "`. -/
def onlyInCapture (dir : String) (line : List Char) : Option (List Char) :=
  let pre := ("Only in " ++ dir ++ ": ").data
  if pre.isPrefixOf line then some (line.drop pre.length) else none

/-- `Array.from(diff.matchAll(re)).map(res => res[1])` for the `Only in`
regexes (lines 88, 92). -/
def onlyInCaptures (dir : String) (lines : List (List Char)) : List (List Char) :=
  lines.filterMap (onlyInCapture dir)

/-- `diff.replace(re, "")` for the `Only in` regexes (lines 89, 93): the
matched lines become empty lines. -/
def blankOnlyIn (dir : String) (lines : List (List Char)) : List (List Char) :=
  lines.map (fun l => if (onlyInCapture dir l).isSome then [] else l)

/-- Trailing-whitespace removal (the `\s*$` tails below). -/
def dropTrailingWs (l : List Char) : List Char :=
  (l.reverse.dropWhile jsIsSpace).reverse

/-- `diff.replace(/\-n\s*$/, "")` (line 113): drop a final `-n` (plus
trailing whitespace).  A first-match replace whose match must be followed
by whitespace only is equivalent to this closed form: strip the trailing
whitespace and, when the remainder ends in `-n`, drop those two
characters together with the whitespace. -/
def stripDashN (l : List Char) : List Char :=
  let t := dropTrailingWs l
  if List.isSuffixOf ['-', 'n'] t then t.dropLast.dropLast else l

/-- The character class `[\d\-\s:\.\+]` of the date-stripping regexes
(lines 115–116). -/
def isDateChar (c : Char) : Bool :=
  c.isDigit || c = '-' || jsIsSpace c || c = ':' || c = '.' || c = '+'

/-- Whether the part of a line following the captured path can be matched
by `\s+[\d\-\s:\.\+]+$`: at least two characters, starting with
whitespace, all in the date class (whitespace is itself in the class, so
any such string splits as `\s+` followed by a non-empty class run). -/
def dateTailOk (l : List Char) : Bool :=
  decide (2 ≤ l.length)
    && (match l.head? with
        | some c => jsIsSpace c
        | none => false)
    && l.all isDateChar

/-- The lazy `[^" ]+?"?` of the date-stripping regexes: consume the
shortest non-empty run of non-quote, non-space characters (and an
optional closing quote) after which `\s+[\d\-\s:\.\+]+$` matches; returns
the consumed (kept) characters, or `none` when no split matches. -/
def lazyPathSplit : List Char → Option (List Char)
  | [] => none
  | c :: rest =>
    if c = '"' || c = ' ' then none
    else if rest.head? = some '"' && dateTailOk rest.tail then some [c, '"']
    else if dateTailOk rest then some [c]
    else
      match lazyPathSplit rest with
      | some kept => some (c :: kept)
      | none => none

/-- `pre.isPrefixOf l` with the remainder, used to consume the fixed
parts of the date-stripping regexes. -/
def dropPre (pre l : List Char) : Option (List Char) :=
  if pre.isPrefixOf l then some (l.drop pre.length) else none

/-- One line under
`line.replace(/^(MARKER "?BASE[^" ]+?"?)\s+[\d\-\s:\.\+]+$/, "$1")`
(lines 115–116, where `MARKER BASE` is `--- package` resp.
`+++ packages`): when the whole line matches, keep group 1 (marker,
optional quote, base, lazily-consumed path run, optional closing quote)
and drop the timestamp tail; otherwise the line is unchanged. -/
def stripVolatile (marker base : List Char) (line : List Char) : List Char :=
  match dropPre marker line with
  | none => line
  | some r1 =>
    let q : List Char := if r1.head? = some '"' then ['"'] else []
    let r2 := if r1.head? = some '"' then r1.tail else r1
    match dropPre base r2 with
    | none => line
    | some r3 =>
      match lazyPathSplit r3 with
      | some kept => marker ++ q ++ base ++ kept
      | none => line

/-- The echoed-command prefix the collapse regex of line 120 keys on. -/
def diffMarker : List Char := ("diff --ignore-trailing-space ").data

/-- `diff.replace(/\n+(diff --ignore-trailing-space )/g, "\n\n$1")`
(line 120): a run of newlines directly followed by the echoed diff
command becomes exactly one blank line.  Greedy `\n+` with a marker that
does not start with a newline means only maximal runs can match.
Fuel-structured; `l.length + 1` fuel suffices. -/
def collapseNl : Nat → List Char → List Char
  | 0, l => l
  | _ + 1, [] => []
  | fuel + 1, c :: rest =>
    if c = '\n' then
      let after := List.dropWhile (fun x => x = '\n') (c :: rest)
      if diffMarker.isPrefixOf after then
        '\n' :: '\n' :: (diffMarker ++ collapseNl fuel (after.drop diffMarker.length))
      else c :: collapseNl fuel rest
    else c :: collapseNl fuel rest

/-- JavaScript `String.prototype.trim` (line 121). -/
def jsTrim (l : List Char) : List Char :=
  dropTrailingWs (l.dropWhile jsIsSpace)

/-- One entry of the (non-recursive) output of the main `diff` invocation
(line 73) comparing the installed package directory against
`packages/<folder>`, as the script's pipeline distinguishes them. -/
inductive DiffEntry where
  /-- `Only in packages/<folder>: <file>`: a file only in the repository. -/
  | onlyInRepo (file : String)
  /-- `Only in <tmp>/node_modules/<name>: <file>`: a file only in the
  installed package. -/
  | onlyInInstalled (file : String)
  /-- A changed file: the echoed `diff …` command line, the `---`/`+++`
  header lines carrying the files' modification timestamps, and the hunk
  lines. -/
  | fileDiff (file : String) (dateL dateR : String) (hunks : List String)
  deriving DecidableEq

/-- Forget the volatile timestamps of an entry. -/
def stripDates : DiffEntry → DiffEntry
  | .fileDiff f _ _ h => .fileDiff f "" "" h
  | e => e

/-- `path.join(tmpFolder, "node_modules", name)` (line 72). -/
def installedDir (tmp name : String) : String := tmp ++ "/node_modules/" ++ name

/-- The echoed-command prefix of a changed-file block (the flags of the
invocation at line 74, as `diff` echoes them). -/
def cmdPre : String :=
  "diff --ignore-trailing-space --exclude=package.json --exclude=README.md --exclude=LICENSE.md --unified=3 "

/-- The lines GNU diff produces for one entry (model of the external
collaborator). -/
def renderEntry (name folder tmp : String) : DiffEntry → List (List Char)
  | .onlyInRepo f => [("Only in packages/" ++ folder ++ ": " ++ f).data]
  | .onlyInInstalled f =>
    [("Only in " ++ installedDir tmp name ++ ": " ++ f).data]
  | .fileDiff f dL dR hunks =>
    (cmdPre ++ installedDir tmp name ++ "/" ++ f
        ++ " packages/" ++ folder ++ "/" ++ f).data ::
    ("--- " ++ installedDir tmp name ++ "/" ++ f ++ "\t" ++ dL).data ::
    ("+++ packages/" ++ folder ++ "/" ++ f ++ "\t" ++ dR).data ::
    hunks.map String.data

/-- The raw output of the main `diff` invocation: the blocks of all
entries joined by newlines, with a final newline when there is any
output (modelled by the final empty line). -/
def rawLines (name folder tmp : String) (entries : List DiffEntry) :
    List (List Char) :=
  (entries.map (renderEntry name folder tmp)).flatten ++ [[]]

def renderRaw (name folder tmp : String) (entries : List DiffEntry) : List Char :=
  joinLines (rawLines name folder tmp entries)

/-- The string post-processing of `computeDiff` (lines 85–145), applied
to the raw output of the main `diff` invocation; returns the final diff
text together with the extracted added/deleted file lists. -/
def normalizeDiff (name folder tmp : String) (raw : List Char)
    (diffReadme diffLicense : String) :
    List Char × List (List Char) × List (List Char) :=
  -- lines 87–89: extract files only in the repo, blank their lines
  let lines0 := splitLines raw
  let added := onlyInCaptures ("packages/" ++ name) lines0
  let lines1 := blankOnlyIn ("packages/" ++ name) lines0
  -- lines 91–93: extract files only in the installed package
  let deleted := onlyInCaptures (installedDir tmp name) lines1
  let lines2 := blankOnlyIn (installedDir tmp name) lines1
  -- lines 112–116: strip `-n`, normalise temp paths and timestamps
  let s1 := stripDashN (joinLines lines2)
  let s2 := replaceAll tmp.data ("package").data s1
  let s3 := joinLines ((splitLines s2).map (stripVolatile ("--- ").data ("package").data))
  let s4 := joinLines ((splitLines s3).map (stripVolatile ("+++ ").data ("packages").data))
  -- lines 119–121: collapse blank runs before blocks, trim
  let s5 := jsTrim (collapseNl (s4.length + 1) s4)
  -- lines 123–128: prepend the deleted-file list
  let s6 :=
    if deleted.length > 0 then
      ("Released package files that no longer exist in the repo:\n").data
        ++ joinLines (deleted.map (fun f => '-' :: ' ' :: f))
        ++ '\n' :: '\n' :: s5
    else s5
  -- lines 130–135: prepend the added-file list
  let s7 :=
    if added.length > 0 then
      ("New repo files that are not yet in the released package:\n").data
        ++ joinLines (added.map (fun f => '+' :: ' ' :: f))
        ++ '\n' :: '\n' :: s6
    else s6
  -- lines 137–143: prepend the static-file notice
  let s8 :=
    if diffReadme ≠ "" ∨ diffLicense ≠ "" then
      ("Static file(s) changed:\n").data
        ++ (if diffReadme ≠ "" then ("+ README.md\n").data else [])
        ++ (if diffLicense ≠ "" then ("+ LICENSE.md\n").data else [])
        ++ '\n' :: '\n' :: s7
    else s7
  (s8, added, deleted)

/-- The environment of one `computeDiff` run. -/
structure DiffEnv where
  /-- suffix `mkdtempSync` appends to the `package-` pattern (line 58). -/
  tmpSuffix : String
  /-- whether `npm install` succeeds (lines 59–61). -/
  installOk : Bool
  /-- manifest version of the installed package (line 64). -/
  installedVersion : String
  /-- whether the diff invocations succeed (lines 73–83). -/
  diffOk : Bool
  /-- content differences reported by the main diff invocation. -/
  entries : List DiffEntry
  /-- output of the README diff (line 77); empty when identical. -/
  diffReadme : String
  /-- output of the LICENSE diff (line 81); empty when identical. -/
  diffLicense : String
  /-- whether `rimraf.sync` succeeds (line 97). -/
  rimrafOk : Bool
  deriving DecidableEq

/-- `fs.mkdtempSync(path.join(os.tmpdir(), "package-"))` (line 58). -/
def tmpFolder (env : DiffEnv) : String := "/tmp/package-" ++ env.tmpSuffix

/-- Result of a `computeDiff` run. -/
structure DiffOut where
  /-- the returned diff text (line 145). -/
  text : String
  /-- the extracted `added` file list (line 88). -/
  addedFiles : List String
  /-- the extracted `deleted` file list (line 92). -/
  deletedFiles : List String
  /-- the module-level `latestReleasedVersion` written at line 64. -/
  releasedVersion : String
  deriving DecidableEq

/-- A filesystem side effect of `computeDiff`; the `rimraf` effect records
whether the removal itself succeeded. -/
inductive FsOp where
  | mkdtemp (dir : String)
  | npmInstall (name : String) (dir : String)
  | execDiff
  | rimraf (dir : String) (ok : Bool)
  deriving DecidableEq

inductive DiffError where
  | installError
  | diffError
  deriving DecidableEq

/-- `computeDiff(name, folder)` (lines 56–146): the result (or the
propagated error) together with the ordered filesystem side effects.  The
temp folder is created first (line 58); a failure of `npm install`
(line 59) or of the diff invocations (lines 73–83) propagates
immediately — the `rimraf` cleanup (lines 96–100) sits after them and
runs only on the success path, where the `try/catch` swallows its own
failure (recorded in the effect's `ok` flag, which does not influence the
result). -/
def computeDiffRun (name folder : String) (env : DiffEnv) :
    Except DiffError DiffOut × List FsOp :=
  let tmp := tmpFolder env
  if env.installOk = false then
    (Except.error DiffError.installError,
      [FsOp.mkdtemp tmp, FsOp.npmInstall name tmp])
  else if env.diffOk = false then
    (Except.error DiffError.diffError,
      [FsOp.mkdtemp tmp, FsOp.npmInstall name tmp, FsOp.execDiff])
  else
    let raw := renderRaw name folder tmp env.entries
    let res := normalizeDiff name folder tmp raw env.diffReadme env.diffLicense
    (Except.ok
      { text := ⟨res.1⟩,
        addedFiles := res.2.1.map (fun l => (⟨l⟩ : String)),
        deletedFiles := res.2.2.map (fun l => (⟨l⟩ : String)),
        releasedVersion := env.installedVersion },
      [FsOp.mkdtemp tmp, FsOp.npmInstall name tmp, FsOp.execDiff,
       FsOp.rimraf tmp env.rimrafOk])

/-! ## C7: temp-directory cleanup -/

/-- A `computeDiff` environment whose `npm install` fails. -/
def envC7bad : DiffEnv :=
  { tmpSuffix := "zz", installOk := false, installedVersion := "1.0.0",
    diffOk := true, entries := [], diffReadme := "", diffLicense := "",
    rimrafOk := true }

/-- **C7 counterexample.** When `npm install` fails, `computeDiff`
propagates the error after having created the temp directory, and no
`rimraf` appears among its effects: the directory is **not** removed
before the error propagates (there is no try/finally around lines
59–93; the cleanup of line 96 is reached only on the success path). -/
theorem claimC7_counterexample :
    (computeDiffRun "web-specs" "web-specs" envC7bad).1
      = Except.error DiffError.installError
    ∧ (computeDiffRun "web-specs" "web-specs" envC7bad).2
      = [FsOp.mkdtemp "/tmp/package-zz",
         FsOp.npmInstall "web-specs" "/tmp/package-zz"] :=
  ⟨rfl, rfl⟩

/-- **C7 (amended).** Cleanup is best-effort on the success path only:
(a) a failure of the removal itself is swallowed — the run's result does
not depend on `rimrafOk`; (b) when installation and the diff invocations
succeed, the temp directory is removed (the `rimraf` effect is issued)
before the call returns; (c) when installation or the diff computation
fails, the error propagates **without** the directory being removed. -/
theorem claimC7_cleanup_success_only (name folder : String) (env : DiffEnv) :
    (∀ b : Bool,
      (computeDiffRun name folder { env with rimrafOk := b }).1
        = (computeDiffRun name folder env).1)
    ∧ (env.installOk = true → env.diffOk = true →
        (computeDiffRun name folder env).2
          = [FsOp.mkdtemp (tmpFolder env), FsOp.npmInstall name (tmpFolder env),
             FsOp.execDiff, FsOp.rimraf (tmpFolder env) env.rimrafOk])
    ∧ (env.installOk = false ∨ env.diffOk = false →
        (∀ ok, FsOp.rimraf (tmpFolder env) ok ∉ (computeDiffRun name folder env).2)
        ∧ ∃ e, (computeDiffRun name folder env).1 = Except.error e) := by
  refine ⟨?_, ?_, ?_⟩
  · intro b
    by_cases hi : env.installOk = false
    · simp [computeDiffRun, tmpFolder, hi]
    · by_cases hd : env.diffOk = false <;>
        simp [computeDiffRun, tmpFolder, hi, hd]
  · intro hi hd
    simp [computeDiffRun, hi, hd, tmpFolder]
  · intro hfail
    have hcase : env.installOk = false ∨ (env.installOk = true ∧ env.diffOk = false) := by
      rcases hfail with h | h
      · exact Or.inl h
      · by_cases hi : env.installOk = false
        · exact Or.inl hi
        · exact Or.inr ⟨by simp at hi; exact hi, h⟩
    rcases hcase with h | ⟨hi, hd⟩
    · constructor
      · intro ok
        simp [computeDiffRun, h]
      · exact ⟨DiffError.installError, by simp [computeDiffRun, h]⟩
    · constructor
      · intro ok
        simp [computeDiffRun, hi, hd]
      · exact ⟨DiffError.diffError, by simp [computeDiffRun, hi, hd]⟩

/-- A successful `computeDiff` environment for the C7 witness. -/
def envC7ok : DiffEnv :=
  { tmpSuffix := "ok1", installOk := true, installedVersion := "1.0.0",
    diffOk := true, entries := [], diffReadme := "", diffLicense := "",
    rimrafOk := false }

/-- Witness for C7 (amended): on a successful run (with a failing,
swallowed removal) the effects end with the `rimraf` of the temp
directory. -/
theorem claimC7_cleanup_success_only_witness :
    (computeDiffRun "web-specs" "web-specs" envC7ok).2
      = [FsOp.mkdtemp (tmpFolder envC7ok),
         FsOp.npmInstall "web-specs" (tmpFolder envC7ok),
         FsOp.execDiff, FsOp.rimraf (tmpFolder envC7ok) envC7ok.rimrafOk] :=
  (claimC7_cleanup_success_only "web-specs" "web-specs" envC7ok).2.1 rfl rfl

/-! ## C8: added-file extraction uses the package name, the diff uses the
folder -/

/-- A repository folder with one new file and one removed file. -/
def envC8 : DiffEnv :=
  { tmpSuffix := "X1", installOk := true, installedVersion := "1.0.0",
    diffOk := true,
    entries := [DiffEntry.onlyInRepo "newfile.json",
                DiffEntry.onlyInInstalled "gone.json"],
    diffReadme := "", diffLicense := "", rimrafOk := true }

set_option maxRecDepth 4000 in
/-- **C8** (code bug, evaluation at the failing input).  The diff of
line 74 compares against `packages/<folder>`, so its output reads
`Only in packages/<folder>: …`, but the extraction regex of line 87 is
built from the package **name**.  With `name = "alpha"`,
`folder = "beta"`: `addedFiles` stays empty and the
`Only in packages/beta: newfile.json` line is left inline in the diff
body — contradicting the claim for every name/folder pair.  (The deleted
extraction, line 91, is built from the actual installed path and works;
and with `name = folder` the added extraction works as claimed.) -/
theorem claimC8_added_extraction_uses_wrong_dir :
    ((computeDiffRun "alpha" "beta" envC8).1.toOption.map DiffOut.addedFiles
      = some [])
    ∧ ((computeDiffRun "alpha" "beta" envC8).1.toOption.map DiffOut.text
      = some "Released package files that no longer exist in the repo:\n- gone.json\n\nOnly in packages/beta: newfile.json")
    ∧ ((computeDiffRun "alpha" "beta" envC8).1.toOption.map DiffOut.deletedFiles
      = some ["gone.json"])
    ∧ ((computeDiffRun "alpha" "alpha" envC8).1.toOption.map
        (fun o => (o.addedFiles, o.text))
      = some (["newfile.json"],
          "New repo files that are not yet in the released package:\n+ newfile.json\n\nReleased package files that no longer exist in the repo:\n- gone.json\n\n")) := by
  refine ⟨by decide, by decide, by decide, by decide⟩

/-! ## C9: determinism of the normalised diff

Well-formedness of a `computeDiff` environment: the benign-content
conditions under which the normalisation provably removes every volatile
element.  They say, decidably: path components contain no whitespace,
quote or newline; timestamps are non-empty runs of date-class characters
with at least one non-space; the temp path does not occur inside any
non-volatile text (so the global path replacement touches exactly the
designated occurrences); no rendered line ends in `-n` (so the
Windows-artifact strip of line 113 is inert); and hunk lines neither look
like `Only in`/`---`/`+++` header lines nor contain the temp path. -/

/-- No newline in a line. -/
def noNl (l : List Char) : Bool := l.all (fun c => c ≠ '\n')

/-- A benign path component: non-empty, no quote, no whitespace. -/
def pathOk (s : String) : Bool :=
  decide (s.data ≠ []) && s.data.all (fun c => c ≠ '"' && !(jsIsSpace c))

/-- A benign timestamp: non-empty run of date-class characters with at
least one non-space, and no newline. -/
def dateOk (d : String) : Bool :=
  decide (d.data ≠ []) && d.data.all isDateChar
    && d.data.any (fun c => !(jsIsSpace c)) && noNl d.data

/-- The line does not end (modulo trailing whitespace) in `-n`. -/
def noDashNTail (l : List Char) : Bool :=
  !(List.isSuffixOf ['-', 'n'] (dropTrailingWs l))

/-- A benign hunk line: it passes every per-line normalisation step
unchanged. -/
def lineOk (name tmp : String) (l : List Char) : Bool :=
  noNl l && noDashNTail l
    && !(occursIn tmp.data l)
    && (onlyInCapture ("packages/" ++ name) l).isNone
    && (onlyInCapture (installedDir tmp name) l).isNone
    && decide (stripVolatile ("--- ").data ("package").data l = l)
    && decide (stripVolatile ("+++ ").data ("packages").data l = l)

/-- Well-formedness of one diff entry w.r.t. a run's temp folder. -/
def entryWf (name folder tmp : String) : DiffEntry → Bool
  | .onlyInRepo f => pathOk f
      && !(occursIn tmp.data (("Only in packages/" ++ folder ++ ": " ++ f).data))
      && noDashNTail (("Only in packages/" ++ folder ++ ": " ++ f).data)
  | .onlyInInstalled f => pathOk f
      && noDashNTail (("Only in " ++ installedDir tmp name ++ ": " ++ f).data)
  | .fileDiff f dL dR hunks =>
      pathOk f && dateOk dL && dateOk dR
      && !(occursIn tmp.data ((cmdPre).data ++ tmp.data.dropLast))
      && !(occursIn tmp.data
            (("/node_modules/" ++ name ++ "/" ++ f
              ++ " packages/" ++ folder ++ "/" ++ f).data))
      && noDashNTail ((cmdPre ++ installedDir tmp name ++ "/" ++ f
            ++ " packages/" ++ folder ++ "/" ++ f).data)
      && !(occursIn tmp.data (("--- ").data ++ tmp.data.dropLast))
      && !(occursIn tmp.data (("/node_modules/" ++ name ++ "/" ++ f
            ++ "\t" ++ dL).data))
      && noDashNTail (("--- " ++ installedDir tmp name ++ "/" ++ f
            ++ "\t" ++ dL).data)
      && !(occursIn tmp.data (("+++ packages/" ++ folder ++ "/" ++ f
            ++ "\t" ++ dR).data))
      && noDashNTail (("+++ packages/" ++ folder ++ "/" ++ f
            ++ "\t" ++ dR).data)
      && hunks.all (fun h => lineOk name tmp h.data)

/-- Well-formedness of a whole `computeDiff` environment. -/
def diffWf (name folder : String) (env : DiffEnv) : Bool :=
  pathOk (tmpFolder env) && pathOk name && pathOk folder
    && env.entries.all (entryWf name folder (tmpFolder env))

/-! ### Lines: joining and splitting -/

theorem joinLines_cons_cons (l l2 : List Char) (rest : List (List Char)) :
    joinLines (l :: l2 :: rest) = l ++ '\n' :: joinLines (l2 :: rest) := rfl

theorem splitLines_joinLines (ls : List (List Char)) (hne : ls ≠ [])
    (h : ∀ l ∈ ls, '\n' ∉ l) :
    splitLines (joinLines ls) = ls := by
  induction ls with
  | nil => exact absurd rfl hne
  | cons l rest ih =>
    cases rest with
    | nil => exact jsSplitChar_of_not_mem _ _ (h l (List.mem_cons_self _ _))
    | cons l2 rest2 =>
      rw [joinLines_cons_cons]
      show jsSplitChar '\n' (l ++ '\n' :: joinLines (l2 :: rest2)) = _
      rw [jsSplitChar_append _ _ _ (h l (List.mem_cons_self _ _))]
      have hrec := ih (by simp) (fun x hx => h x (List.mem_cons_of_mem _ hx))
      exact congrArg (l :: ·) hrec

theorem joinLines_append_last (init : List (List Char)) (last : List Char)
    (hne : init ≠ []) :
    joinLines (init ++ [last]) = joinLines init ++ '\n' :: last := by
  induction init with
  | nil => exact absurd rfl hne
  | cons l rest ih =>
    cases rest with
    | nil => rfl
    | cons l2 r2 =>
      show joinLines (l :: ((l2 :: r2) ++ [last])) = _
      rw [show (l2 :: r2) ++ [last] = l2 :: (r2 ++ [last]) from rfl,
        joinLines_cons_cons, joinLines_cons_cons,
        show l2 :: (r2 ++ [last]) = (l2 :: r2) ++ [last] from rfl,
        ih (by simp)]
      simp

/-! ### Prefix and occurrence helpers -/

theorem prefix_of_prefix_append {pat X Y : List Char}
    (h : pat <+: X ++ Y) (hlen : pat.length ≤ X.length) : pat <+: X := by
  have h1 := List.prefix_iff_eq_take.mp h
  rw [List.take_append_of_le_length hlen] at h1
  rw [h1]
  exact List.take_prefix _ _

theorem prefix_through_sep {sep : Char} :
    ∀ (u pat v : List Char), pat <+: u ++ sep :: v → sep ∉ pat → pat <+: u := by
  intro u
  induction u with
  | nil =>
    intro pat v h hs
    cases pat with
    | nil => exact List.nil_prefix
    | cons p pr =>
      obtain ⟨t, ht⟩ := h
      simp only [List.nil_append, List.cons_append, List.cons.injEq] at ht
      exact absurd (ht.1 ▸ List.mem_cons_self p pr) hs
  | cons a u' ih =>
    intro pat v h hs
    cases pat with
    | nil => exact List.nil_prefix
    | cons p pr =>
      obtain ⟨t, ht⟩ := h
      simp only [List.cons_append, List.cons.injEq] at ht
      obtain ⟨hpa, htl⟩ := ht
      have hs' : sep ∉ pr := fun m => hs (List.mem_cons_of_mem _ m)
      obtain ⟨t', ht'⟩ := ih pr v ⟨t, htl⟩ hs'
      exact ⟨t', by rw [hpa]; simp [← ht']⟩

theorem not_prefix_of_ne_head {a : List Char} {c d : Char} {x y : List Char}
    (hcd : c ≠ d) : ¬ ((a ++ c :: x) <+: (a ++ d :: y)) := by
  intro h
  obtain ⟨t, ht⟩ := (List.prefix_append_right_inj a).mp h
  simp only [List.cons_append, List.cons.injEq] at ht
  exact hcd ht.1

theorem occursIn_eq_false_iff {pat l : List Char} (hp : pat ≠ []) :
    occursIn pat l = false ↔ ∀ p, ¬ (pat <+: l.drop p) := by
  constructor
  · intro h p hpre
    by_cases hple : p ≤ l.length
    · have hmem : p ∈ List.range (l.length + 1) := by
        rw [List.mem_range]; omega
      have hfalse : pat.isPrefixOf (l.drop p) = false := by
        by_contra hcon
        have htrue : pat.isPrefixOf (l.drop p) = true := by
          cases hb : pat.isPrefixOf (l.drop p)
          · exact absurd hb hcon
          · rfl
        have : occursIn pat l = true := by
          unfold occursIn
          rw [List.any_eq_true]
          exact ⟨p, hmem, htrue⟩
        rw [h] at this
        exact Bool.false_ne_true this
      rw [← List.isPrefixOf_iff_prefix] at hpre
      rw [hfalse] at hpre
      exact Bool.false_ne_true hpre
    · have : l.drop p = [] := List.drop_eq_nil_of_le (by omega)
      rw [this] at hpre
      exact hp (List.prefix_nil.mp hpre)
  · intro h
    cases hb : occursIn pat l with
    | false => rfl
    | true =>
      unfold occursIn at hb
      rw [List.any_eq_true] at hb
      obtain ⟨p, _, hpre⟩ := hb
      exact absurd (List.isPrefixOf_iff_prefix.mp hpre) (h p)

/-! ### Properties of the global literal replacement -/

theorem replaceAllAux_fuel (pat rep : List Char) :
    ∀ f l g, l.length ≤ f → l.length ≤ g →
      replaceAllAux pat rep f l = replaceAllAux pat rep g l := by
  intro f
  induction f with
  | zero =>
    intro l g hf _
    have : l = [] := List.eq_nil_of_length_eq_zero (Nat.le_zero.mp hf)
    subst this
    cases g <;> rfl
  | succ f ih =>
    intro l g hf hg
    cases l with
    | nil => cases g <;> rfl
    | cons c rest =>
      cases g with
      | zero => simp at hg
      | succ g' =>
        rw [show replaceAllAux pat rep (f + 1) (c :: rest)
            = (if pat ≠ [] ∧ pat.isPrefixOf (c :: rest) = true then
                rep ++ replaceAllAux pat rep f ((c :: rest).drop pat.length)
              else c :: replaceAllAux pat rep f rest) from rfl,
          show replaceAllAux pat rep (g' + 1) (c :: rest)
            = (if pat ≠ [] ∧ pat.isPrefixOf (c :: rest) = true then
                rep ++ replaceAllAux pat rep g' ((c :: rest).drop pat.length)
              else c :: replaceAllAux pat rep g' rest) from rfl]
        by_cases hm : pat ≠ [] ∧ pat.isPrefixOf (c :: rest) = true
        · rw [if_pos hm, if_pos hm]
          have hplen : 1 ≤ pat.length := by
            cases hp : pat with
            | nil => exact absurd hp hm.1
            | cons a b => simp
          have hlen : ((c :: rest).drop pat.length).length ≤ f := by
            rw [List.length_drop]
            simp only [List.length_cons] at hf ⊢
            omega
          have hlen' : ((c :: rest).drop pat.length).length ≤ g' := by
            rw [List.length_drop]
            simp only [List.length_cons] at hg ⊢
            omega
          exact congrArg (rep ++ ·) (ih _ g' hlen hlen')
        · rw [if_neg hm, if_neg hm]
          have hlen : rest.length ≤ f := by
            simp only [List.length_cons] at hf
            omega
          have hlen' : rest.length ≤ g' := by
            simp only [List.length_cons] at hg
            omega
          exact congrArg (c :: ·) (ih _ g' hlen hlen')

theorem replaceAll_cons (pat rep : List Char) (c : Char) (rest : List Char) :
    replaceAll pat rep (c :: rest)
      = if pat ≠ [] ∧ pat.isPrefixOf (c :: rest) = true then
          rep ++ replaceAll pat rep ((c :: rest).drop pat.length)
        else c :: replaceAll pat rep rest := by
  show (if pat ≠ [] ∧ pat.isPrefixOf (c :: rest) = true then
      rep ++ replaceAllAux pat rep ((c :: rest).length) ((c :: rest).drop pat.length)
    else c :: replaceAllAux pat rep ((c :: rest).length) rest) = _
  by_cases hm : pat ≠ [] ∧ pat.isPrefixOf (c :: rest) = true
  · rw [if_pos hm, if_pos hm]
    refine congrArg (rep ++ ·) (replaceAllAux_fuel pat rep _ _ _ ?_ ?_)
    · rw [List.length_drop]; omega
    · rw [List.length_drop]; omega
  · rw [if_neg hm, if_neg hm]
    refine congrArg (c :: ·) (replaceAllAux_fuel pat rep _ _ _ ?_ ?_) <;> simp

theorem replaceAll_no_occ (pat rep : List Char) (hp : pat ≠ []) :
    ∀ l, (∀ p, ¬ (pat <+: l.drop p)) → replaceAll pat rep l = l := by
  intro l
  induction l with
  | nil => intro _; rfl
  | cons c rest ih =>
    intro h
    rw [replaceAll_cons, if_neg]
    · refine congrArg (c :: ·) (ih (fun p hpre => h (p + 1) ?_))
      simpa using hpre
    · rintro ⟨-, hpre⟩
      exact h 0 (by simpa using List.isPrefixOf_iff_prefix.mp hpre)

theorem replaceAll_head_match (pat rep l : List Char) (hp : pat ≠ [])
    (h : pat <+: l) :
    replaceAll pat rep l = rep ++ replaceAll pat rep (l.drop pat.length) := by
  cases l with
  | nil =>
    rw [List.prefix_nil.mp h] at hp
    exact absurd rfl hp
  | cons c rest =>
    rw [replaceAll_cons, if_pos ⟨hp, List.isPrefixOf_iff_prefix.mpr h⟩]

theorem replaceAll_skip (pat rep : List Char) (c : Char) (rest : List Char)
    (h : ¬ (pat <+: c :: rest)) :
    replaceAll pat rep (c :: rest) = c :: replaceAll pat rep rest := by
  rw [replaceAll_cons, if_neg]
  rintro ⟨-, hpre⟩
  exact h (List.isPrefixOf_iff_prefix.mp hpre)

theorem replaceAll_single (pat rep : List Char) (hp : pat ≠ []) :
    ∀ A B, occursIn pat (A ++ pat.dropLast) = false → occursIn pat B = false →
      replaceAll pat rep (A ++ pat ++ B) = A ++ rep ++ B := by
  intro A
  induction A with
  | nil =>
    intro B _ hB
    simp only [List.nil_append]
    rw [replaceAll_head_match pat rep (pat ++ B) hp (List.prefix_append pat B),
      List.drop_left, replaceAll_no_occ pat rep hp B
        ((occursIn_eq_false_iff hp).mp hB)]
  | cons c A' ih =>
    intro B hA hB
    have hshift : occursIn pat (A' ++ pat.dropLast) = false := by
      rw [occursIn_eq_false_iff hp]
      intro p hpre
      have := (occursIn_eq_false_iff hp).mp hA (p + 1)
      exact this (by simpa using hpre)
    have hhead : ¬ (pat <+: (c :: A') ++ pat ++ B) := by
      intro h
      have hsplit : (c :: A') ++ pat ++ B
          = ((c :: A') ++ pat.dropLast) ++ (pat.getLast hp :: B) := by
        conv_lhs => rw [← List.dropLast_concat_getLast hp]
        simp
      rw [hsplit] at h
      have hlen : pat.length ≤ ((c :: A') ++ pat.dropLast).length := by
        have : pat.dropLast.length = pat.length - 1 := List.length_dropLast pat
        simp only [List.length_append, List.length_cons, this]
        have : 1 ≤ pat.length := by
          cases hpp : pat with
          | nil => exact absurd hpp hp
          | cons a b => simp
        omega
      have := prefix_of_prefix_append h hlen
      have hocc := (occursIn_eq_false_iff hp).mp hA 0
      simp only [List.drop_zero] at hocc
      exact hocc this
    rw [show (c :: A') ++ pat ++ B = c :: (A' ++ pat ++ B) by simp,
      replaceAll_skip pat rep c _ (by
        intro h
        exact hhead (by simpa using h)),
      ih B hshift hB]
    simp

theorem replaceAll_join_distrib (pat rep : List Char) (sep : Char)
    (hp : pat ≠ []) (hs : sep ∉ pat) :
    ∀ n xs ys, xs.length ≤ n →
      replaceAll pat rep (xs ++ sep :: ys)
        = replaceAll pat rep xs ++ sep :: replaceAll pat rep ys := by
  intro n
  induction n with
  | zero =>
    intro xs ys hlen
    have : xs = [] := List.eq_nil_of_length_eq_zero (Nat.le_zero.mp hlen)
    subst this
    simp only [List.nil_append]
    rw [replaceAll_skip pat rep sep ys (by
      intro h
      cases hpp : pat with
      | nil => exact hp hpp
      | cons a b =>
        rw [hpp] at h
        obtain ⟨t, ht⟩ := h
        simp only [List.cons_append, List.cons.injEq] at ht
        exact hs (hpp ▸ (ht.1 ▸ List.mem_cons_self a b)))]
    rfl
  | succ n ih =>
    intro xs ys hlen
    cases xs with
    | nil =>
      exact ih [] ys (by simp)
    | cons c xs' =>
      by_cases hm : pat <+: (c :: xs') ++ sep :: ys
      · have hpre : pat <+: c :: xs' := prefix_through_sep _ pat ys hm hs
        have hplen : pat.length ≤ (c :: xs').length := List.IsPrefix.length_le hpre
        have hplen1 : 1 ≤ pat.length := by
          cases hpp : pat with
          | nil => exact absurd hpp hp
          | cons a b => simp
        rw [show (c :: xs') ++ sep :: ys = (c :: xs') ++ sep :: ys from rfl,
          replaceAll_head_match pat rep _ hp hm,
          List.drop_append_of_le_length hplen,
          replaceAll_head_match pat rep (c :: xs') hp hpre,
          ih ((c :: xs').drop pat.length) ys (by
            rw [List.length_drop]
            simp only [List.length_cons] at hlen ⊢
            omega)]
        simp
      · have hm' : ¬ (pat <+: c :: xs') := by
          intro h
          exact hm (h.trans (List.prefix_append _ _))
        rw [show (c :: xs') ++ sep :: ys = c :: (xs' ++ sep :: ys) from rfl,
          replaceAll_skip pat rep c _ (by
            intro h
            exact hm (by simpa using h)),
          replaceAll_skip pat rep c xs' hm',
          ih xs' ys (by simp only [List.length_cons] at hlen; omega)]
        rfl

/-- Distribution of the global replacement over joined lines, when the
pattern contains no newline. -/
theorem replaceAll_joinLines (pat rep : List Char) (hp : pat ≠ [])
    (hs : '\n' ∉ pat) (ls : List (List Char)) :
    replaceAll pat rep (joinLines ls) = joinLines (ls.map (replaceAll pat rep)) := by
  induction ls with
  | nil => rfl
  | cons l rest ih =>
    cases rest with
    | nil => rfl
    | cons l2 r2 =>
      rw [joinLines_cons_cons,
        replaceAll_join_distrib pat rep '\n' hp hs l.length l (joinLines (l2 :: r2))
          (Nat.le_refl _),
        ih]
      rfl

/-! ### The `-n` strip is inert on benign content -/

theorem dropTrailingWs_append (a b : List Char) :
    dropTrailingWs (a ++ b)
      = if dropTrailingWs b = [] then dropTrailingWs a
        else a ++ dropTrailingWs b := by
  have hb : (dropTrailingWs b = []) ↔ (List.dropWhile jsIsSpace b.reverse).isEmpty = true := by
    unfold dropTrailingWs
    rw [List.isEmpty_iff]
    constructor
    · intro h
      simpa using congrArg List.reverse h
    · intro h
      rw [h]
      rfl
  by_cases h : (List.dropWhile jsIsSpace b.reverse).isEmpty = true
  · rw [if_pos (hb.mpr h)]
    unfold dropTrailingWs
    rw [List.reverse_append, List.dropWhile_append, if_pos h]
  · rw [if_neg (fun hh => h (hb.mp hh))]
    unfold dropTrailingWs
    rw [List.reverse_append, List.dropWhile_append, if_neg h,
      List.reverse_append, List.reverse_reverse]

theorem isSuffixOf_append_right (s a t : List Char) (h : s.length ≤ t.length) :
    List.isSuffixOf s (a ++ t) = List.isSuffixOf s t := by
  show (s.reverse.isPrefixOf (a ++ t).reverse) = (s.reverse.isPrefixOf t.reverse)
  rw [List.reverse_append]
  cases hb : List.isPrefixOf s.reverse t.reverse with
  | true =>
    have hpre : s.reverse <+: t.reverse ++ a.reverse :=
      (List.isPrefixOf_iff_prefix.mp hb).trans (List.prefix_append _ _)
    rw [List.isPrefixOf_iff_prefix.mpr hpre]
  | false =>
    cases hb2 : List.isPrefixOf s.reverse (t.reverse ++ a.reverse) with
    | false => rfl
    | true =>
      have hpre := List.isPrefixOf_iff_prefix.mp hb2
      have hpre2 := prefix_of_prefix_append hpre (by simpa using h)
      have := List.isPrefixOf_iff_prefix.mpr hpre2
      rw [hb] at this
      exact absurd this (by simp)

theorem dashNTail_joinLines :
    ∀ ls : List (List Char),
      (∀ l ∈ ls, List.isSuffixOf ['-', 'n'] (dropTrailingWs l) = false) →
      List.isSuffixOf ['-', 'n'] (dropTrailingWs (joinLines ls)) = false := by
  intro ls
  induction ls using List.reverseRecOn with
  | nil => intro _; rfl
  | append_singleton init last ih =>
    intro h
    cases hinit : init with
    | nil =>
      simp only [hinit, List.nil_append]
      exact h last (by simp [hinit])
    | cons i0 irest =>
      rw [← hinit, joinLines_append_last init last (by rw [hinit]; simp)]
      rw [show joinLines init ++ '\n' :: last = joinLines init ++ (['\n'] ++ last) from rfl]
      rw [dropTrailingWs_append]
      by_cases hlast : dropTrailingWs (['\n'] ++ last) = []
      · rw [if_pos hlast]
        exact ih (fun l hl => h l (List.mem_append_left _ hl))
      · rw [if_neg hlast]
        rw [dropTrailingWs_append ['\n'] last] at hlast ⊢
        by_cases hl2 : dropTrailingWs last = []
        · rw [if_pos hl2] at hlast
          exact absurd rfl hlast
        · rw [if_neg hl2] at hlast ⊢
          cases hd : dropTrailingWs last with
          | nil => exact absurd hd hl2
          | cons d0 drest =>
            cases drest with
            | nil =>
              rw [show (['\n'] : List Char) ++ [d0] = ['\n', d0] from rfl]
              rw [isSuffixOf_append_right ['-', 'n'] (joinLines init) ['\n', d0]
                (by simp)]
              show (['-', 'n'].reverse.isPrefixOf (['\n', d0] : List Char).reverse) = false
              simp [List.isPrefixOf]
            | cons d1 drest2 =>
              have hlen : 2 ≤ (d0 :: d1 :: drest2).length := by simp
              rw [isSuffixOf_append_right ['-', 'n'] (joinLines init)
                (['\n'] ++ d0 :: d1 :: drest2) (by simp),
                isSuffixOf_append_right ['-', 'n'] ['\n'] (d0 :: d1 :: drest2) hlen]
              have := h last (List.mem_append_right _ (by simp))
              rw [hd] at this
              exact this

theorem stripDashN_joinLines_id (ls : List (List Char))
    (h : ∀ l ∈ ls, List.isSuffixOf ['-', 'n'] (dropTrailingWs l) = false) :
    stripDashN (joinLines ls) = joinLines ls := by
  unfold stripDashN
  simp [dashNTail_joinLines ls h]

/-! ### Evaluation of the timestamp strip -/

theorem dropPre_self_append (pre X : List Char) : dropPre pre (pre ++ X) = some X := by
  unfold dropPre
  rw [List.isPrefixOf_iff_prefix.mpr (List.prefix_append pre X)]
  simp [List.drop_left]

theorem dropPre_head_ne (m : Char) (mr : List Char) (c : Char) (l : List Char)
    (h : c ≠ m) : dropPre (m :: mr) (c :: l) = none := by
  unfold dropPre
  have : (m :: mr).isPrefixOf (c :: l) = false := by
    cases hb : (m :: mr).isPrefixOf (c :: l) with
    | false => rfl
    | true =>
      obtain ⟨t, ht⟩ := List.isPrefixOf_iff_prefix.mp hb
      simp only [List.cons_append, List.cons.injEq] at ht
      exact absurd ht.1.symm h
  simp [this]

theorem dropPre_nil (m : Char) (mr : List Char) : dropPre (m :: mr) [] = none := rfl

theorem stripVolatile_nil (m : Char) (mr base : List Char) :
    stripVolatile (m :: mr) base [] = [] := rfl

theorem stripVolatile_head_ne (m : Char) (mr base : List Char) (c : Char)
    (l : List Char) (h : c ≠ m) : stripVolatile (m :: mr) base (c :: l) = c :: l := by
  unfold stripVolatile
  rw [dropPre_head_ne m mr c l h]

theorem lazyPathSplit_cons (c : Char) (rest : List Char) :
    lazyPathSplit (c :: rest)
      = if c = '"' || c = ' ' then none
        else if rest.head? = some '"' && dateTailOk rest.tail then some [c, '"']
        else if dateTailOk rest then some [c]
        else
          match lazyPathSplit rest with
          | some kept => some (c :: kept)
          | none => none := rfl

theorem dateTailOk_false_of_head (x : Char) (xs : List Char)
    (h : jsIsSpace x = false) : dateTailOk (x :: xs) = false := by
  simp [dateTailOk, h]

theorem dateTailOk_tab (date : List Char) (hne : date ≠ [])
    (hdc : ∀ c ∈ date, isDateChar c = true) :
    dateTailOk ('\t' :: date) = true := by
  unfold dateTailOk
  have h1 : 1 ≤ date.length := List.length_pos.mpr hne
  have h2 : date.all isDateChar = true := List.all_eq_true.mpr hdc
  have h3 : jsIsSpace '\t' = true := by decide
  have h4 : isDateChar '\t' = true := by decide
  simp [h1, h2, h3, h4]

theorem lazyPathSplit_eval :
    ∀ path : List Char, path ≠ [] →
      (∀ c ∈ path, c ≠ '"' ∧ jsIsSpace c = false) →
      ∀ date : List Char, date ≠ [] → (∀ c ∈ date, isDateChar c = true) →
      lazyPathSplit (path ++ '\t' :: date) = some path := by
  intro path
  induction path with
  | nil => intro h; exact absurd rfl h
  | cons c path' ih =>
    intro _ hpath date hd hdc
    have hc := hpath c (List.mem_cons_self _ _)
    have hb1 : ((c = '"' : Bool) || (c = ' ' : Bool)) = false := by
      have h1 : (c = '"' : Bool) = false := by
        simp [hc.1]
      have h2 : (c = ' ' : Bool) = false := by
        have : c ≠ ' ' := by
          intro e
          rw [e] at hc
          simp [jsIsSpace] at hc
        simp [this]
      rw [h1, h2]
      rfl
    rw [show (c :: path') ++ '\t' :: date = c :: (path' ++ '\t' :: date) from rfl,
      lazyPathSplit_cons, hb1]
    simp only [Bool.false_eq_true, if_false]
    cases path' with
    | nil =>
      simp only [List.nil_append]
      have hhead : (('\t' :: date).head? = some '"' : Bool) = false := by
        simp
      rw [hhead]
      simp only [Bool.false_and, Bool.false_eq_true, if_false]
      rw [dateTailOk_tab date hd hdc]
      simp
    | cons p2 pr =>
      have hp2 := hpath p2 (List.mem_cons_of_mem _ (List.mem_cons_self _ _))
      have hhead : (((p2 :: pr) ++ '\t' :: date).head? = some '"' : Bool) = false := by
        simp only [List.cons_append, List.head?_cons]
        simp [hp2.1]
      rw [hhead]
      simp only [Bool.false_and, Bool.false_eq_true, if_false]
      have hdt : dateTailOk ((p2 :: pr) ++ '\t' :: date) = false := by
        rw [show (p2 :: pr) ++ '\t' :: date = p2 :: (pr ++ '\t' :: date) from rfl]
        exact dateTailOk_false_of_head p2 _ hp2.2
      rw [hdt]
      simp only [Bool.false_eq_true, if_false]
      rw [ih (by simp) (fun x hx => hpath x (List.mem_cons_of_mem _ hx)) date hd hdc]

theorem stripVolatile_eval (marker : List Char) (b0 : Char) (br : List Char)
    (path date : List Char) (hb0 : b0 ≠ '"')
    (hpath : path ≠ [] ∧ ∀ c ∈ path, c ≠ '"' ∧ jsIsSpace c = false)
    (hdate : date ≠ [] ∧ ∀ c ∈ date, isDateChar c = true) :
    stripVolatile marker (b0 :: br)
        (marker ++ ((b0 :: br) ++ (path ++ '\t' :: date)))
      = marker ++ ((b0 :: br) ++ path) := by
  unfold stripVolatile
  rw [dropPre_self_append marker _]
  have hq : (((b0 :: br) ++ (path ++ '\t' :: date)).head? = some '"') ↔ False := by
    simp only [List.cons_append, List.head?_cons, Option.some.injEq]
    exact ⟨fun h => hb0 h, False.elim⟩
  simp only [hq, if_false]
  rw [dropPre_self_append (b0 :: br) _]
  dsimp only
  rw [lazyPathSplit_eval path hpath.1 hpath.2 date hdate.1 hdate.2]
  simp

/-! ### Evaluation of the `Only in` extraction -/

theorem onlyInCapture_self (dir : String) (f : List Char) :
    onlyInCapture dir (("Only in " ++ dir ++ ": ").data ++ f) = some f := by
  unfold onlyInCapture
  dsimp only
  rw [if_pos (List.isPrefixOf_iff_prefix.mpr (List.prefix_append _ _) : _ = true),
    List.drop_left]

theorem onlyInPre_eq (dir : String) :
    ("Only in " ++ dir ++ ": ").data
      = 'O' :: (("nly in ").data ++ (dir.data ++ (": ").data)) := by
  show (("Only in ").data ++ dir.data) ++ (": ").data = _
  rw [show ("Only in ").data = 'O' :: ("nly in ").data from rfl]
  simp

theorem onlyInCapture_nil (dir : String) : onlyInCapture dir [] = none := by
  unfold onlyInCapture
  dsimp only
  have h : (("Only in " ++ dir ++ ": ").data).isPrefixOf [] = false := by
    rw [onlyInPre_eq dir]
    rfl
  rw [h]
  simp

theorem isPrefixOf_cons_ne {p0 c : Char} {pr l : List Char} (h : c ≠ p0) :
    (p0 :: pr).isPrefixOf (c :: l) = false := by
  cases hb : (p0 :: pr).isPrefixOf (c :: l) with
  | false => rfl
  | true =>
    obtain ⟨t, ht⟩ := List.isPrefixOf_iff_prefix.mp hb
    simp only [List.cons_append, List.cons.injEq] at ht
    exact absurd ht.1.symm h

theorem onlyInCapture_head_ne (dir : String) (c : Char) (l : List Char)
    (h : c ≠ 'O') : onlyInCapture dir (c :: l) = none := by
  unfold onlyInCapture
  dsimp only
  rw [onlyInPre_eq dir, isPrefixOf_cons_ne h]
  simp

/-- Two `Only in` prefixes with different directory heads do not match
each other's lines. -/
theorem onlyInCapture_dir_head_ne (dir : String) (line : List Char)
    (d0 : Char) (drest : List Char) (c0 : Char) (crest : List Char)
    (hdir : dir.data = d0 :: drest)
    (hline : line = ("Only in ").data ++ (c0 :: crest))
    (hne : d0 ≠ c0) : onlyInCapture dir line = none := by
  unfold onlyInCapture
  have hpre : ("Only in " ++ dir ++ ": ").data
      = ("Only in ").data ++ (d0 :: (drest ++ (": ").data)) := by
    show (("Only in ").data ++ dir.data) ++ (": ").data = _
    rw [hdir]
    simp
  have hfalse : (("Only in " ++ dir ++ ": ").data).isPrefixOf line = false := by
    cases hb : (("Only in " ++ dir ++ ": ").data).isPrefixOf line with
    | false => rfl
    | true =>
      have hp := List.isPrefixOf_iff_prefix.mp hb
      rw [hpre, hline] at hp
      exact absurd hp (not_prefix_of_ne_head hne)
  dsimp only
  rw [hfalse]
  simp

/-! ### Character-subset facts (newline preservation) -/

theorem mem_replaceAll (pat rep : List Char) :
    ∀ n l c, l.length ≤ n → c ∈ replaceAll pat rep l → c ∈ l ∨ c ∈ rep := by
  intro n
  induction n with
  | zero =>
    intro l c hl hm
    have : l = [] := List.eq_nil_of_length_eq_zero (Nat.le_zero.mp hl)
    subst this
    rw [show replaceAll pat rep [] = [] from rfl] at hm
    simp at hm
  | succ n ih =>
    intro l c hl hm
    cases l with
    | nil =>
      rw [show replaceAll pat rep [] = [] from rfl] at hm
      simp at hm
    | cons a rest =>
      rw [replaceAll_cons] at hm
      by_cases hcond : pat ≠ [] ∧ pat.isPrefixOf (a :: rest) = true
      · rw [if_pos hcond] at hm
        rcases List.mem_append.mp hm with h | h
        · exact Or.inr h
        · have hplen : 1 ≤ pat.length := by
            cases hpp : pat with
            | nil => exact absurd hpp hcond.1
            | cons x y => simp
          have hlen : ((a :: rest).drop pat.length).length ≤ n := by
            rw [List.length_drop]
            simp only [List.length_cons] at hl ⊢
            omega
          rcases ih _ c hlen h with h2 | h2
          · exact Or.inl (List.mem_of_mem_drop h2)
          · exact Or.inr h2
      · rw [if_neg hcond] at hm
        rcases List.mem_cons.mp hm with h | h
        · exact Or.inl (h ▸ List.mem_cons_self _ _)
        · have hlen : rest.length ≤ n := by
            simp only [List.length_cons] at hl
            omega
          rcases ih rest c hlen h with h2 | h2
          · exact Or.inl (List.mem_cons_of_mem _ h2)
          · exact Or.inr h2

theorem mem_lazyPathSplit :
    ∀ l kept c, lazyPathSplit l = some kept → c ∈ kept → c ∈ l ∨ c = '"' := by
  intro l
  induction l with
  | nil => intro kept c h; simp [lazyPathSplit] at h
  | cons a rest ih =>
    intro kept c h hc
    rw [lazyPathSplit_cons] at h
    by_cases h1 : ((a = '"' : Bool) || (a = ' ' : Bool)) = true
    · rw [if_pos h1] at h; simp at h
    · rw [if_neg h1] at h
      by_cases h2 : (rest.head? = some '"' && dateTailOk rest.tail) = true
      · rw [if_pos h2] at h
        obtain rfl : kept = [a, '"'] := by
          injection h with h; exact h.symm
        rcases List.mem_cons.mp hc with h3 | h3
        · exact Or.inl (h3 ▸ List.mem_cons_self _ _)
        · simp at h3
          exact Or.inr h3
      · rw [if_neg h2] at h
        by_cases h3 : dateTailOk rest = true
        · rw [if_pos h3] at h
          obtain rfl : kept = [a] := by
            injection h with h; exact h.symm
          simp at hc
          exact Or.inl (hc ▸ List.mem_cons_self _ _)
        · rw [if_neg h3] at h
          cases hr : lazyPathSplit rest with
          | none => rw [hr] at h; simp at h
          | some kept' =>
            rw [hr] at h
            obtain rfl : kept = a :: kept' := by
              injection h with h; exact h.symm
            rcases List.mem_cons.mp hc with h4 | h4
            · exact Or.inl (h4 ▸ List.mem_cons_self _ _)
            · rcases ih kept' c hr h4 with h5 | h5
              · exact Or.inl (List.mem_cons_of_mem _ h5)
              · exact Or.inr h5

theorem noNl_stripVolatile (marker base line : List Char)
    (hm : '\n' ∉ marker) (hb : '\n' ∉ base) (hl : noNl line = true) :
    noNl (stripVolatile marker base line) = true := by
  unfold stripVolatile
  cases hd1 : dropPre marker line with
  | none => exact hl
  | some r1 =>
    dsimp only
    have hr1 : ∀ c ∈ r1, c ∈ line := by
      intro c hc
      unfold dropPre at hd1
      by_cases hp : marker.isPrefixOf line = true
      · rw [if_pos hp] at hd1
        injection hd1 with hd1
        exact List.mem_of_mem_drop (hd1 ▸ hc)
      · rw [if_neg hp] at hd1; cases hd1
    cases hd2 : dropPre base (if r1.head? = some '"' then r1.tail else r1) with
    | none => exact hl
    | some r3 =>
      dsimp only
      have hr3 : ∀ c ∈ r3, c ∈ line := by
        intro c hc
        unfold dropPre at hd2
        by_cases hp : base.isPrefixOf (if r1.head? = some '"' then r1.tail else r1) = true
        · rw [if_pos hp] at hd2
          injection hd2 with hd2
          have : c ∈ (if r1.head? = some '"' then r1.tail else r1) :=
            List.mem_of_mem_drop (hd2 ▸ hc)
          by_cases hq : r1.head? = some '"'
          · rw [if_pos hq] at this
            exact hr1 c (mem_of_mem_tail this)
          · rw [if_neg hq] at this
            exact hr1 c this
        · rw [if_neg hp] at hd2; cases hd2
      cases hd3 : lazyPathSplit r3 with
      | none => exact hl
      | some kept =>
        dsimp only
        unfold noNl at hl ⊢
        rw [List.all_eq_true] at hl ⊢
        intro c hc
        simp only [List.mem_append] at hc
        rcases hc with ((hc | hc) | hc) | hc
        · simp only [decide_eq_true_eq]
          exact fun e => hm (e ▸ hc)
        · by_cases hq : r1.head? = some '"'
          · rw [if_pos hq] at hc
            simp only [List.mem_singleton] at hc
            subst hc
            decide
          · rw [if_neg hq] at hc
            simp at hc
        · simp only [decide_eq_true_eq]
          exact fun e => hb (e ▸ hc)
        · rcases mem_lazyPathSplit r3 kept c hd3 hc with h5 | h5
          · exact hl c (hr3 c h5)
          · subst h5
            decide

/-! ### Per-line form of the normalisation pipeline -/

/-- One line of `diff.replace(re, "")` for an `Only in` regex (lines 89,
93): a matching line is blanked, any other line is kept. -/
def blankLine (dir : String) (line : List Char) : List Char :=
  if (onlyInCapture dir line).isSome then [] else line

/-- The composition of the per-line string normalisation steps of
lines 114-116: temp-path replacement, then the `---` and `+++`
timestamp strips. -/
def normLine (tmp : String) (l : List Char) : List Char :=
  stripVolatile ("+++ ").data ("packages").data
    (stripVolatile ("--- ").data ("package").data
      (replaceAll tmp.data ("package").data l))

/-- The whole per-line pipeline: both `Only in` blankings (lines 89, 93)
followed by the string normalisation steps (lines 114-116). -/
def procLine (name tmp : String) (l : List Char) : List Char :=
  normLine tmp (blankLine (installedDir tmp name) (blankLine ("packages/" ++ name) l))

/-- The `addedFiles` captures (line 88) contributed by one diff entry;
stated from the extraction as coded, i.e. keyed on the package NAME. -/
def canonAdded (name folder : String) : DiffEntry → List (List Char)
  | .onlyInRepo f =>
    (onlyInCapture ("packages/" ++ name)
      (("Only in packages/" ++ folder ++ ": " ++ f).data)).toList
  | _ => []

/-- The `deletedFiles` captures (line 92) contributed by one entry. -/
def canonDeleted : DiffEntry → List (List Char)
  | .onlyInInstalled f => [f.data]
  | _ => []

/-- The normalised (temp-path- and timestamp-free) lines one entry
contributes to the final diff body. -/
def canonEntryLines (name folder : String) : DiffEntry → List (List Char)
  | .onlyInRepo f =>
    [blankLine ("packages/" ++ name) (("Only in packages/" ++ folder ++ ": " ++ f).data)]
  | .onlyInInstalled _ => [[]]
  | .fileDiff f _ _ hunks =>
    (cmdPre ++ "package/node_modules/" ++ name ++ "/" ++ f
      ++ " packages/" ++ folder ++ "/" ++ f).data ::
    ("--- package/node_modules/" ++ name ++ "/" ++ f).data ::
    ("+++ packages/" ++ folder ++ "/" ++ f).data ::
    hunks.map String.data

/-- The value of `normalizeDiff` on benign content, written without any
reference to the temp folder or the header timestamps; the two boolean
flags are the truthiness of the README/LICENSE diff outputs. -/
def canonNormalize (name folder : String) (entries : List DiffEntry)
    (readmeDiff licenseDiff : Bool) :
    List Char × List (List Char) × List (List Char) :=
  let added := (entries.map (canonAdded name folder)).flatten
  let deleted := (entries.map canonDeleted).flatten
  let s4 := joinLines ((entries.map (canonEntryLines name folder)).flatten ++ [[]])
  let s5 := jsTrim (collapseNl (s4.length + 1) s4)
  let s6 :=
    if deleted.length > 0 then
      ("Released package files that no longer exist in the repo:\n").data
        ++ joinLines (deleted.map (fun f => '-' :: ' ' :: f))
        ++ '\n' :: '\n' :: s5
    else s5
  let s7 :=
    if added.length > 0 then
      ("New repo files that are not yet in the released package:\n").data
        ++ joinLines (added.map (fun f => '+' :: ' ' :: f))
        ++ '\n' :: '\n' :: s6
    else s6
  let s8 :=
    if readmeDiff || licenseDiff then
      ("Static file(s) changed:\n").data
        ++ (if readmeDiff then ("+ README.md\n").data else [])
        ++ (if licenseDiff then ("+ LICENSE.md\n").data else [])
        ++ '\n' :: '\n' :: s7
    else s7
  (s8, added, deleted)

/-! ### Small helpers for the well-formedness predicates -/

theorem noNl_iff (l : List Char) : noNl l = true ↔ '\n' ∉ l := by
  unfold noNl
  rw [List.all_eq_true]
  constructor
  · intro h hm
    have := h '\n' hm
    simp at this
  · intro h c hc
    simp only [decide_eq_true_eq]
    intro e
    exact h (e ▸ hc)

theorem pathOk_spec (s : String) (h : pathOk s = true) :
    s.data ≠ [] ∧ ∀ c ∈ s.data, c ≠ '"' ∧ jsIsSpace c = false := by
  unfold pathOk at h
  rw [Bool.and_eq_true, List.all_eq_true] at h
  refine ⟨by simpa using h.1, fun c hc => ?_⟩
  have := h.2 c hc
  rw [Bool.and_eq_true] at this
  exact ⟨by simpa using this.1, by simpa using this.2⟩

theorem not_nl_of_pathOk (s : String) (h : pathOk s = true) : '\n' ∉ s.data := by
  intro hm
  have h2 := ((pathOk_spec s h).2 '\n' hm).2
  rw [show jsIsSpace '\n' = true from by decide] at h2
  exact absurd h2 (by decide)

theorem dateOk_spec (d : String) (h : dateOk d = true) :
    d.data ≠ [] ∧ (∀ c ∈ d.data, isDateChar c = true) ∧ '\n' ∉ d.data := by
  unfold dateOk at h
  simp only [Bool.and_eq_true] at h
  obtain ⟨⟨⟨h1, h2⟩, _⟩, h4⟩ := h
  exact ⟨by simpa using h1, by simpa [List.all_eq_true] using h2, (noNl_iff _).mp h4⟩

theorem lineOk_spec (name tmp : String) (l : List Char) (h : lineOk name tmp l = true) :
    '\n' ∉ l ∧ noDashNTail l = true ∧ occursIn tmp.data l = false
      ∧ onlyInCapture ("packages/" ++ name) l = none
      ∧ onlyInCapture (installedDir tmp name) l = none
      ∧ stripVolatile ("--- ").data ("package").data l = l
      ∧ stripVolatile ("+++ ").data ("packages").data l = l := by
  unfold lineOk at h
  simp only [Bool.and_eq_true, Bool.not_eq_true', Option.isNone_iff_eq_none,
    decide_eq_true_eq] at h
  obtain ⟨⟨⟨⟨⟨⟨h1, h2⟩, h3⟩, h4⟩, h5⟩, h6⟩, h7⟩ := h
  exact ⟨(noNl_iff l).mp h1, h2, h3, h4, h5, h6, h7⟩

theorem replaceAll_nil (pat rep : List Char) : replaceAll pat rep [] = [] := rfl

theorem replaceAll_of_not_occurs (pat rep l : List Char) (hp : pat ≠ [])
    (h : occursIn pat l = false) : replaceAll pat rep l = l :=
  replaceAll_no_occ pat rep hp l ((occursIn_eq_false_iff hp).mp h)

theorem blankOnlyIn_eq_map (dir : String) (ls : List (List Char)) :
    blankOnlyIn dir ls = ls.map (blankLine dir) := rfl

theorem blankLine_nil (dir : String) : blankLine dir [] = [] := by
  unfold blankLine
  rw [onlyInCapture_nil]
  rfl

theorem blankLine_of_none (dir : String) (l : List Char)
    (h : onlyInCapture dir l = none) : blankLine dir l = l := by
  unfold blankLine
  rw [h]
  rfl

theorem blankLine_of_some (dir : String) (l x : List Char)
    (h : onlyInCapture dir l = some x) : blankLine dir l = [] := by
  unfold blankLine
  rw [h]
  rfl

theorem normLine_nil (tmp : String) : normLine tmp [] = [] := by
  unfold normLine
  rw [replaceAll_nil,
    show ("--- ").data = '-' :: ("-- ").data from rfl, stripVolatile_nil,
    show ("+++ ").data = '+' :: ("++ ").data from rfl, stripVolatile_nil]

theorem procLine_nil (name tmp : String) : procLine name tmp [] = [] := by
  unfold procLine
  rw [blankLine_nil, blankLine_nil, normLine_nil]

theorem flatten_filterMap {α β : Type} (g : α → Option β) (L : List (List α)) :
    (L.flatten).filterMap g = (L.map (fun l => l.filterMap g)).flatten := by
  induction L with
  | nil => rfl
  | cons a t ih => simp [List.filterMap_append, ih]

theorem mem_rawLines (name folder tmp : String) (entries : List DiffEntry)
    (l : List Char) (h : l ∈ rawLines name folder tmp entries) :
    l = [] ∨ ∃ e ∈ entries, l ∈ renderEntry name folder tmp e := by
  unfold rawLines at h
  rcases List.mem_append.mp h with h | h
  · obtain ⟨L, hL, hlL⟩ := List.mem_flatten.mp h
    obtain ⟨e, he, rfl⟩ := List.mem_map.mp hL
    exact Or.inr ⟨e, he, hlL⟩
  · exact Or.inl (by simpa using h)

theorem mem_map_blankLine (dir : String) (ls : List (List Char)) (l : List Char)
    (h : l ∈ ls.map (blankLine dir)) : l = [] ∨ l ∈ ls := by
  obtain ⟨x, hx, rfl⟩ := List.mem_map.mp h
  unfold blankLine
  by_cases hc : (onlyInCapture dir x).isSome = true
  · rw [if_pos hc]
    exact Or.inl rfl
  · rw [if_neg hc]
    exact Or.inr hx

theorem not_nl_append {a b : List Char} (ha : '\n' ∉ a) (hb : '\n' ∉ b) :
    '\n' ∉ a ++ b := by
  intro hm
  rcases List.mem_append.mp hm with h | h
  · exact ha h
  · exact hb h

theorem pathChars_append {a b : List Char}
    (ha : ∀ c ∈ a, c ≠ '"' ∧ jsIsSpace c = false)
    (hb : ∀ c ∈ b, c ≠ '"' ∧ jsIsSpace c = false) :
    ∀ c ∈ a ++ b, c ≠ '"' ∧ jsIsSpace c = false := by
  intro c hc
  rcases List.mem_append.mp hc with h | h
  · exact ha c h
  · exact hb c h

theorem onlyInCapture_head_ne_of_head? (dir : String) (l : List Char) (c : Char)
    (h : l.head? = some c) (hc : c ≠ 'O') : onlyInCapture dir l = none := by
  cases l with
  | nil => cases h
  | cons a r =>
    simp only [List.head?_cons, Option.some.injEq] at h
    exact onlyInCapture_head_ne dir a r (by rw [h]; exact hc)

theorem stripVolatile_head_ne_of_head? (m : Char) (mr base : List Char)
    (l : List Char) (c : Char) (h : l.head? = some c) (hc : c ≠ m) :
    stripVolatile (m :: mr) base l = l := by
  cases l with
  | nil => cases h
  | cons a r =>
    simp only [List.head?_cons, Option.some.injEq] at h
    exact stripVolatile_head_ne m mr base a r (by rw [h]; exact hc)

/-! ### The rendered lines are newline-free and `-n`-free -/

theorem renderEntry_noNl (name folder tmp : String) (hn : pathOk name = true)
    (hf : pathOk folder = true) (ht : pathOk tmp = true) (e : DiffEntry)
    (hw : entryWf name folder tmp e = true) :
    ∀ l ∈ renderEntry name folder tmp e, '\n' ∉ l := by
  cases e with
  | onlyInRepo f =>
    simp only [entryWf, Bool.and_eq_true] at hw
    obtain ⟨⟨hpf, -⟩, -⟩ := hw
    intro l hl
    simp only [renderEntry, List.mem_singleton] at hl
    subst hl
    simp +decide [data_append, List.mem_append, not_or,
      not_nl_of_pathOk folder hf, not_nl_of_pathOk f hpf]
  | onlyInInstalled f =>
    simp only [entryWf, Bool.and_eq_true] at hw
    obtain ⟨hpf, -⟩ := hw
    intro l hl
    simp only [renderEntry, List.mem_singleton] at hl
    subst hl
    simp +decide [installedDir, data_append, List.mem_append, not_or,
      not_nl_of_pathOk tmp ht, not_nl_of_pathOk name hn, not_nl_of_pathOk f hpf]
  | fileDiff f dL dR hunks =>
    simp only [entryWf, Bool.and_eq_true] at hw
    obtain ⟨⟨⟨⟨⟨⟨⟨⟨⟨⟨⟨hpf, hdL⟩, hdR⟩, -⟩, -⟩, -⟩, -⟩, -⟩, -⟩, -⟩, -⟩, hhunks⟩ := hw
    intro l hl
    simp only [renderEntry, List.mem_cons] at hl
    rcases hl with rfl | rfl | rfl | hl
    · simp +decide [installedDir, cmdPre, data_append, List.mem_append, not_or,
        not_nl_of_pathOk tmp ht, not_nl_of_pathOk name hn,
        not_nl_of_pathOk folder hf, not_nl_of_pathOk f hpf]
    · simp +decide [installedDir, data_append, List.mem_append, not_or,
        not_nl_of_pathOk tmp ht, not_nl_of_pathOk name hn,
        not_nl_of_pathOk f hpf, (dateOk_spec dL hdL).2.2]
    · simp +decide [data_append, List.mem_append, not_or,
        not_nl_of_pathOk folder hf, not_nl_of_pathOk f hpf,
        (dateOk_spec dR hdR).2.2]
    · obtain ⟨x, hx, rfl⟩ := List.mem_map.mp hl
      have := List.all_eq_true.mp hhunks x hx
      exact (lineOk_spec name tmp x.data this).1

theorem renderEntry_dashFree (name folder tmp : String) (e : DiffEntry)
    (hw : entryWf name folder tmp e = true) :
    ∀ l ∈ renderEntry name folder tmp e, noDashNTail l = true := by
  cases e with
  | onlyInRepo f =>
    simp only [entryWf, Bool.and_eq_true] at hw
    obtain ⟨-, hdash⟩ := hw
    intro l hl
    simp only [renderEntry, List.mem_singleton] at hl
    subst hl
    exact hdash
  | onlyInInstalled f =>
    simp only [entryWf, Bool.and_eq_true] at hw
    obtain ⟨-, hdash⟩ := hw
    intro l hl
    simp only [renderEntry, List.mem_singleton] at hl
    subst hl
    exact hdash
  | fileDiff f dL dR hunks =>
    simp only [entryWf, Bool.and_eq_true] at hw
    obtain ⟨⟨⟨⟨⟨⟨⟨⟨⟨⟨⟨-, -⟩, -⟩, -⟩, -⟩, hd1⟩, -⟩, -⟩, hd2⟩, -⟩, hd3⟩, hhunks⟩ := hw
    intro l hl
    simp only [renderEntry, List.mem_cons] at hl
    rcases hl with rfl | rfl | rfl | hl
    · exact hd1
    · exact hd2
    · exact hd3
    · obtain ⟨x, hx, rfl⟩ := List.mem_map.mp hl
      have := List.all_eq_true.mp hhunks x hx
      exact (lineOk_spec name tmp x.data this).2.1

/-! ### Per-entry evaluation of the pipeline -/

theorem hunkLines (name tmp : String) (htne : tmp.data ≠ []) (hs : List String)
    (h : ∀ x ∈ hs, lineOk name tmp x.data = true) :
    (hs.map String.data).map (procLine name tmp) = hs.map String.data
    ∧ (hs.map String.data).filterMap (onlyInCapture ("packages/" ++ name)) = []
    ∧ ((hs.map String.data).map (blankLine ("packages/" ++ name))).filterMap
        (onlyInCapture (installedDir tmp name)) = [] := by
  induction hs with
  | nil => exact ⟨rfl, rfl, rfl⟩
  | cons a t ih =>
    obtain ⟨ih1, ih2, ih3⟩ := ih (fun x hx => h x (List.mem_cons_of_mem _ hx))
    obtain ⟨-, -, hocc, hc1, hc2, hv1, hv2⟩ :=
      lineOk_spec name tmp a.data (h a (List.mem_cons_self _ _))
    have hpl : procLine name tmp a.data = a.data := by
      unfold procLine
      rw [blankLine_of_none _ _ hc1, blankLine_of_none _ _ hc2]
      unfold normLine
      rw [replaceAll_of_not_occurs _ _ _ htne hocc, hv1, hv2]
    refine ⟨?_, ?_, ?_⟩
    · show procLine name tmp a.data :: (t.map String.data).map (procLine name tmp) = _
      rw [hpl, ih1]
      rfl
    · show List.filterMap _ (a.data :: t.map String.data) = _
      rw [List.filterMap_cons_none hc1, ih2]
    · show List.filterMap (onlyInCapture (installedDir tmp name))
          (blankLine ("packages/" ++ name) a.data
            :: (t.map String.data).map (blankLine ("packages/" ++ name))) = []
      rw [blankLine_of_none _ _ hc1, List.filterMap_cons_none hc2, ih3]

theorem procEntry (name folder tmp : String)
    (hn : pathOk name = true) (hf : pathOk folder = true) (ht : pathOk tmp = true)
    (hh : tmp.data.head? = some '/') (e : DiffEntry)
    (hw : entryWf name folder tmp e = true) :
    (renderEntry name folder tmp e).map (procLine name tmp)
        = canonEntryLines name folder e
    ∧ (renderEntry name folder tmp e).filterMap (onlyInCapture ("packages/" ++ name))
        = canonAdded name folder e
    ∧ ((renderEntry name folder tmp e).map (blankLine ("packages/" ++ name))).filterMap
        (onlyInCapture (installedDir tmp name))
        = canonDeleted e := by
  obtain ⟨rtmp, hrt⟩ : ∃ r, tmp.data = '/' :: r := by
    cases htd : tmp.data with
    | nil => rw [htd] at hh; cases hh
    | cons a r =>
      rw [htd] at hh
      simp only [List.head?_cons, Option.some.injEq] at hh
      exact ⟨r, by rw [hh]⟩
  have htne : tmp.data ≠ [] := (pathOk_spec tmp ht).1
  have hiDir : (installedDir tmp name).data
      = '/' :: (rtmp ++ (("/node_modules/").data ++ name.data)) := by
    simp [installedDir, data_append, hrt]
  cases e with
  | onlyInRepo f =>
    simp only [entryWf, Bool.and_eq_true, Bool.not_eq_true'] at hw
    obtain ⟨⟨hpf, hocc⟩, -⟩ := hw
    have hLsplit : ("Only in packages/" ++ folder ++ ": " ++ f).data
        = ("Only in ").data
          ++ ('p' :: (("ackages/").data ++ (folder.data ++ ((": ").data ++ f.data)))) := by
      simp [data_append,
        show ("Only in packages/" : String).data
            = ("Only in ").data ++ 'p' :: ("ackages/").data from rfl]
    have hcap2L : onlyInCapture (installedDir tmp name)
        (("Only in packages/" ++ folder ++ ": " ++ f).data) = none :=
      onlyInCapture_dir_head_ne _ _ '/' _ 'p' _ hiDir hLsplit (by decide)
    have hLcons : (("Only in packages/" ++ folder ++ ": " ++ f).data).head? = some 'O' := rfl
    have hnormL : normLine tmp (("Only in packages/" ++ folder ++ ": " ++ f).data)
        = ("Only in packages/" ++ folder ++ ": " ++ f).data := by
      unfold normLine
      rw [replaceAll_of_not_occurs _ _ _ htne hocc]
      have hv1 : stripVolatile ("--- ").data ("package").data
          (("Only in packages/" ++ folder ++ ": " ++ f).data)
          = ("Only in packages/" ++ folder ++ ": " ++ f).data := by
        rw [show ("--- ").data = '-' :: ("-- ").data from rfl]
        exact stripVolatile_head_ne_of_head? _ _ _ _ 'O' hLcons (by decide)
      rw [hv1, show ("+++ ").data = '+' :: ("++ ").data from rfl]
      exact stripVolatile_head_ne_of_head? _ _ _ _ 'O' hLcons (by decide)
    refine ⟨?_, ?_, ?_⟩
    · show [procLine name tmp (("Only in packages/" ++ folder ++ ": " ++ f).data)]
          = [blankLine ("packages/" ++ name)
              (("Only in packages/" ++ folder ++ ": " ++ f).data)]
      unfold procLine
      cases hc : onlyInCapture ("packages/" ++ name)
          (("Only in packages/" ++ folder ++ ": " ++ f).data) with
      | none =>
        rw [blankLine_of_none _ _ hc, blankLine_of_none _ _ hcap2L, hnormL]
      | some x =>
        rw [blankLine_of_some _ _ _ hc, blankLine_nil, normLine_nil]
    · show List.filterMap (onlyInCapture ("packages/" ++ name))
          [("Only in packages/" ++ folder ++ ": " ++ f).data]
          = (onlyInCapture ("packages/" ++ name)
              (("Only in packages/" ++ folder ++ ": " ++ f).data)).toList
      cases hc : onlyInCapture ("packages/" ++ name)
          (("Only in packages/" ++ folder ++ ": " ++ f).data) with
      | none => rw [List.filterMap_cons_none hc]; rfl
      | some x => rw [List.filterMap_cons_some hc]; rfl
    · show List.filterMap (onlyInCapture (installedDir tmp name))
          [blankLine ("packages/" ++ name)
            (("Only in packages/" ++ folder ++ ": " ++ f).data)] = []
      have hz : onlyInCapture (installedDir tmp name)
          (blankLine ("packages/" ++ name)
            (("Only in packages/" ++ folder ++ ": " ++ f).data)) = none := by
        cases hc : onlyInCapture ("packages/" ++ name)
            (("Only in packages/" ++ folder ++ ": " ++ f).data) with
        | none => rw [blankLine_of_none _ _ hc]; exact hcap2L
        | some x => rw [blankLine_of_some _ _ _ hc]; exact onlyInCapture_nil _
      rw [List.filterMap_cons_none hz]
      rfl
  | onlyInInstalled f =>
    simp only [entryWf, Bool.and_eq_true] at hw
    obtain ⟨hpf, -⟩ := hw
    have hpd : ("packages/" ++ name).data = 'p' :: (("ackages/").data ++ name.data) := by
      simp [data_append,
        show ("packages/" : String).data = 'p' :: ("ackages/").data from rfl]
    have hLsplit1 : ("Only in " ++ installedDir tmp name ++ ": " ++ f).data
        = ("Only in ").data
          ++ ('/' :: (rtmp ++ (("/node_modules/").data
              ++ (name.data ++ ((": ").data ++ f.data))))) := by
      simp [installedDir, data_append, hrt]
    have hcap1 : onlyInCapture ("packages/" ++ name)
        (("Only in " ++ installedDir tmp name ++ ": " ++ f).data) = none :=
      onlyInCapture_dir_head_ne _ _ 'p' _ '/' _ hpd hLsplit1 (by decide)
    have hcap2 : onlyInCapture (installedDir tmp name)
        (("Only in " ++ installedDir tmp name ++ ": " ++ f).data) = some f.data := by
      have hsh : ("Only in " ++ installedDir tmp name ++ ": " ++ f).data
          = ("Only in " ++ installedDir tmp name ++ ": ").data ++ f.data := by
        simp [data_append]
      rw [hsh]
      exact onlyInCapture_self _ _
    refine ⟨?_, ?_, ?_⟩
    · show [procLine name tmp
          (("Only in " ++ installedDir tmp name ++ ": " ++ f).data)] = [[]]
      unfold procLine
      rw [blankLine_of_none _ _ hcap1, blankLine_of_some _ _ _ hcap2, normLine_nil]
    · show List.filterMap _
          [("Only in " ++ installedDir tmp name ++ ": " ++ f).data] = []
      rw [List.filterMap_cons_none hcap1]
      rfl
    · show List.filterMap (onlyInCapture (installedDir tmp name))
          [blankLine ("packages/" ++ name)
            (("Only in " ++ installedDir tmp name ++ ": " ++ f).data)] = [f.data]
      rw [blankLine_of_none _ _ hcap1, List.filterMap_cons_some hcap2]
      rfl
  | fileDiff f dL dR hunks =>
    simp only [entryWf, Bool.and_eq_true, Bool.not_eq_true'] at hw
    obtain ⟨⟨⟨⟨⟨⟨⟨⟨⟨⟨⟨hpf, hdL⟩, hdR⟩, ho1⟩, ho2⟩, hd1⟩, ho3⟩, ho4⟩, hd2⟩, ho5⟩, hd3⟩,
      hhunks⟩ := hw
    have hHc : ((cmdPre ++ installedDir tmp name ++ "/" ++ f ++ " packages/"
        ++ folder ++ "/" ++ f).data).head? = some 'd' := rfl
    have hH1 : (("--- " ++ installedDir tmp name ++ "/" ++ f ++ "\t" ++ dL).data).head?
        = some '-' := rfl
    have hH2 : (("+++ packages/" ++ folder ++ "/" ++ f ++ "\t" ++ dR).data).head?
        = some '+' := rfl
    have hshC : (cmdPre ++ installedDir tmp name ++ "/" ++ f ++ " packages/"
        ++ folder ++ "/" ++ f).data
        = (cmdPre.data ++ tmp.data)
          ++ ("/node_modules/" ++ name ++ "/" ++ f ++ " packages/"
              ++ folder ++ "/" ++ f).data := by
      simp [installedDir, data_append]
    have hrepC : replaceAll tmp.data ("package").data
        ((cmdPre ++ installedDir tmp name ++ "/" ++ f ++ " packages/"
          ++ folder ++ "/" ++ f).data)
        = (cmdPre.data ++ ("package").data)
          ++ ("/node_modules/" ++ name ++ "/" ++ f ++ " packages/"
              ++ folder ++ "/" ++ f).data := by
      rw [hshC]
      exact replaceAll_single tmp.data ("package").data htne cmdPre.data _ ho1 ho2
    have hprocC : procLine name tmp
        ((cmdPre ++ installedDir tmp name ++ "/" ++ f ++ " packages/"
          ++ folder ++ "/" ++ f).data)
        = (cmdPre ++ "package/node_modules/" ++ name ++ "/" ++ f ++ " packages/"
            ++ folder ++ "/" ++ f).data := by
      unfold procLine
      rw [blankLine_of_none _ _ (onlyInCapture_head_ne_of_head? _ _ 'd' hHc (by decide)),
        blankLine_of_none _ _ (onlyInCapture_head_ne_of_head? _ _ 'd' hHc (by decide))]
      unfold normLine
      rw [hrepC]
      have hv1 : stripVolatile ("--- ").data ("package").data
          ((cmdPre.data ++ ("package").data)
            ++ ("/node_modules/" ++ name ++ "/" ++ f ++ " packages/"
                ++ folder ++ "/" ++ f).data)
          = (cmdPre.data ++ ("package").data)
            ++ ("/node_modules/" ++ name ++ "/" ++ f ++ " packages/"
                ++ folder ++ "/" ++ f).data := by
        rw [show ("--- ").data = '-' :: ("-- ").data from rfl]
        exact stripVolatile_head_ne_of_head? _ _ _ _ 'd' rfl (by decide)
      rw [hv1]
      have hv2 : stripVolatile ("+++ ").data ("packages").data
          ((cmdPre.data ++ ("package").data)
            ++ ("/node_modules/" ++ name ++ "/" ++ f ++ " packages/"
                ++ folder ++ "/" ++ f).data)
          = (cmdPre.data ++ ("package").data)
            ++ ("/node_modules/" ++ name ++ "/" ++ f ++ " packages/"
                ++ folder ++ "/" ++ f).data := by
        rw [show ("+++ ").data = '+' :: ("++ ").data from rfl]
        exact stripVolatile_head_ne_of_head? _ _ _ _ 'd' rfl (by decide)
      rw [hv2]
      simp [data_append,
        show ("package/node_modules/" : String).data
            = ("package").data ++ ("/node_modules/").data from rfl]
    have hrep1 : replaceAll tmp.data ("package").data
        (("--- " ++ installedDir tmp name ++ "/" ++ f ++ "\t" ++ dL).data)
        = (("--- ").data ++ ("package").data)
          ++ ("/node_modules/" ++ name ++ "/" ++ f ++ "\t" ++ dL).data := by
      have hsh1 : ("--- " ++ installedDir tmp name ++ "/" ++ f ++ "\t" ++ dL).data
          = (("--- ").data ++ tmp.data)
            ++ ("/node_modules/" ++ name ++ "/" ++ f ++ "\t" ++ dL).data := by
        simp [installedDir, data_append]
      rw [hsh1]
      exact replaceAll_single tmp.data ("package").data htne ("--- ").data _ ho3 ho4
    have hpathsh : ("/node_modules/" ++ name ++ "/" ++ f).data
        = '/' :: (("node_modules/").data ++ (name.data ++ (("/").data ++ f.data))) := by
      simp [data_append,
        show ("/node_modules/" : String).data = '/' :: ("node_modules/").data from rfl]
    have hpathne : ("/node_modules/" ++ name ++ "/" ++ f).data ≠ [] := by
      rw [hpathsh]
      exact List.cons_ne_nil _ _
    have hpathchars : ∀ c ∈ ("/node_modules/" ++ name ++ "/" ++ f).data,
        c ≠ '"' ∧ jsIsSpace c = false := by
      rw [hpathsh]
      intro c hc
      rcases List.mem_cons.mp hc with rfl | hc
      · exact ⟨by decide, by decide⟩
      · exact pathChars_append (by decide)
          (pathChars_append (pathOk_spec name hn).2
            (pathChars_append (by decide) (pathOk_spec f hpf).2)) c hc
    have hform1 : (("--- ").data ++ ("package").data)
        ++ ("/node_modules/" ++ name ++ "/" ++ f ++ "\t" ++ dL).data
        = ("--- ").data ++ (('p' :: ("ackage").data)
            ++ (("/node_modules/" ++ name ++ "/" ++ f).data ++ '\t' :: dL.data)) := by
      simp [data_append]
    have hsv1 : stripVolatile ("--- ").data ("package").data
        ((("--- ").data ++ ("package").data)
          ++ ("/node_modules/" ++ name ++ "/" ++ f ++ "\t" ++ dL).data)
        = ("--- ").data ++ (('p' :: ("ackage").data)
            ++ ("/node_modules/" ++ name ++ "/" ++ f).data) := by
      rw [hform1, show ("package" : String).data = 'p' :: ("ackage").data from rfl]
      exact stripVolatile_eval (("--- ").data) 'p' (("ackage").data)
        (("/node_modules/" ++ name ++ "/" ++ f).data) dL.data (by decide)
        ⟨hpathne, hpathchars⟩ ⟨(dateOk_spec dL hdL).1, (dateOk_spec dL hdL).2.1⟩
    have hproc1 : procLine name tmp
        (("--- " ++ installedDir tmp name ++ "/" ++ f ++ "\t" ++ dL).data)
        = ("--- package/node_modules/" ++ name ++ "/" ++ f).data := by
      unfold procLine
      rw [blankLine_of_none _ _ (onlyInCapture_head_ne_of_head? _ _ '-' hH1 (by decide)),
        blankLine_of_none _ _ (onlyInCapture_head_ne_of_head? _ _ '-' hH1 (by decide))]
      unfold normLine
      rw [hrep1, hsv1]
      have hv2 : stripVolatile ("+++ ").data ("packages").data
          (("--- ").data ++ (('p' :: ("ackage").data)
            ++ ("/node_modules/" ++ name ++ "/" ++ f).data))
          = ("--- ").data ++ (('p' :: ("ackage").data)
              ++ ("/node_modules/" ++ name ++ "/" ++ f).data) := by
        rw [show ("+++ ").data = '+' :: ("++ ").data from rfl]
        exact stripVolatile_head_ne_of_head? _ _ _ _ '-' rfl (by decide)
      rw [hv2]
      simp [data_append,
        show ("--- package/node_modules/" : String).data
            = ("--- ").data ++ 'p' :: (("ackage").data ++ ("/node_modules/").data)
          from rfl]
    have hrep2 : replaceAll tmp.data ("package").data
        (("+++ packages/" ++ folder ++ "/" ++ f ++ "\t" ++ dR).data)
        = ("+++ packages/" ++ folder ++ "/" ++ f ++ "\t" ++ dR).data :=
      replaceAll_of_not_occurs _ _ _ htne ho5
    have hpath2sh : ("/" ++ folder ++ "/" ++ f).data
        = '/' :: (folder.data ++ (("/").data ++ f.data)) := by
      simp [data_append]
    have hpath2ne : ("/" ++ folder ++ "/" ++ f).data ≠ [] := by
      rw [hpath2sh]
      exact List.cons_ne_nil _ _
    have hpath2chars : ∀ c ∈ ("/" ++ folder ++ "/" ++ f).data,
        c ≠ '"' ∧ jsIsSpace c = false := by
      rw [hpath2sh]
      intro c hc
      rcases List.mem_cons.mp hc with rfl | hc
      · exact ⟨by decide, by decide⟩
      · exact pathChars_append (pathOk_spec folder hf).2
          (pathChars_append (by decide) (pathOk_spec f hpf).2) c hc
    have hform2 : ("+++ packages/" ++ folder ++ "/" ++ f ++ "\t" ++ dR).data
        = ("+++ ").data ++ (('p' :: ("ackages").data)
            ++ (("/" ++ folder ++ "/" ++ f).data ++ '\t' :: dR.data)) := by
      simp [data_append]
    have hsv2 : stripVolatile ("+++ ").data ("packages").data
        (("+++ packages/" ++ folder ++ "/" ++ f ++ "\t" ++ dR).data)
        = ("+++ ").data ++ (('p' :: ("ackages").data)
            ++ ("/" ++ folder ++ "/" ++ f).data) := by
      rw [hform2, show ("packages" : String).data = 'p' :: ("ackages").data from rfl]
      exact stripVolatile_eval (("+++ ").data) 'p' (("ackages").data)
        (("/" ++ folder ++ "/" ++ f).data) dR.data (by decide)
        ⟨hpath2ne, hpath2chars⟩ ⟨(dateOk_spec dR hdR).1, (dateOk_spec dR hdR).2.1⟩
    have hproc2 : procLine name tmp
        (("+++ packages/" ++ folder ++ "/" ++ f ++ "\t" ++ dR).data)
        = ("+++ packages/" ++ folder ++ "/" ++ f).data := by
      unfold procLine
      rw [blankLine_of_none _ _ (onlyInCapture_head_ne_of_head? _ _ '+' hH2 (by decide)),
        blankLine_of_none _ _ (onlyInCapture_head_ne_of_head? _ _ '+' hH2 (by decide))]
      unfold normLine
      rw [hrep2]
      have hv1 : stripVolatile ("--- ").data ("package").data
          (("+++ packages/" ++ folder ++ "/" ++ f ++ "\t" ++ dR).data)
          = ("+++ packages/" ++ folder ++ "/" ++ f ++ "\t" ++ dR).data := by
        rw [show ("--- ").data = '-' :: ("-- ").data from rfl]
        exact stripVolatile_head_ne_of_head? _ _ _ _ '+' hH2 (by decide)
      rw [hv1, hsv2]
      simp [data_append,
        show ("+++ packages/" : String).data
            = ("+++ ").data ++ 'p' :: ("ackages/").data from rfl]
    obtain ⟨hk1, hk2, hk3⟩ := hunkLines name tmp htne hunks (fun x hx => by
      have := List.all_eq_true.mp hhunks x hx
      simpa using this)
    refine ⟨?_, ?_, ?_⟩
    · simp only [renderEntry, canonEntryLines, List.map_cons]
      rw [hprocC, hproc1, hproc2, hk1]
    · simp only [renderEntry, canonAdded]
      rw [List.filterMap_cons_none
          (onlyInCapture_head_ne_of_head? _ _ 'd' hHc (by decide)),
        List.filterMap_cons_none
          (onlyInCapture_head_ne_of_head? _ _ '-' hH1 (by decide)),
        List.filterMap_cons_none
          (onlyInCapture_head_ne_of_head? _ _ '+' hH2 (by decide)),
        hk2]
    · show List.filterMap (onlyInCapture (installedDir tmp name))
          (blankLine ("packages/" ++ name)
              ((cmdPre ++ installedDir tmp name ++ "/" ++ f ++ " packages/"
                ++ folder ++ "/" ++ f).data)
            :: blankLine ("packages/" ++ name)
              (("--- " ++ installedDir tmp name ++ "/" ++ f ++ "\t" ++ dL).data)
            :: blankLine ("packages/" ++ name)
              (("+++ packages/" ++ folder ++ "/" ++ f ++ "\t" ++ dR).data)
            :: (hunks.map String.data).map (blankLine ("packages/" ++ name))) = []
      rw [blankLine_of_none _ _ (onlyInCapture_head_ne_of_head? _ _ 'd' hHc (by decide)),
        blankLine_of_none _ _ (onlyInCapture_head_ne_of_head? _ _ '-' hH1 (by decide)),
        blankLine_of_none _ _ (onlyInCapture_head_ne_of_head? _ _ '+' hH2 (by decide)),
        List.filterMap_cons_none (onlyInCapture_head_ne_of_head? _ _ 'd' hHc (by decide)),
        List.filterMap_cons_none (onlyInCapture_head_ne_of_head? _ _ '-' hH1 (by decide)),
        List.filterMap_cons_none (onlyInCapture_head_ne_of_head? _ _ '+' hH2 (by decide)),
        hk3]

/-! ### Assembling the pipeline over a whole run -/

theorem mapPipeline (name tmp : String) (ls : List (List Char)) :
    ((((ls.map (blankLine ("packages/" ++ name))).map
        (blankLine (installedDir tmp name))).map
        (replaceAll tmp.data ("package").data)).map
        (stripVolatile ("--- ").data ("package").data)).map
        (stripVolatile ("+++ ").data ("packages").data)
      = ls.map (procLine name tmp) := by
  induction ls with
  | nil => rfl
  | cons a t ih =>
    simp only [List.map_cons, ih]
    rfl

theorem normalizeDiff_canon (name folder tmp : String) (entries : List DiffEntry)
    (hn : pathOk name = true) (hf : pathOk folder = true) (ht : pathOk tmp = true)
    (hh : tmp.data.head? = some '/')
    (hwe : ∀ e ∈ entries, entryWf name folder tmp e = true)
    (dRm dLc : String) :
    normalizeDiff name folder tmp (renderRaw name folder tmp entries) dRm dLc
      = canonNormalize name folder entries (decide (dRm ≠ "")) (decide (dLc ≠ "")) := by
  have htne : tmp.data ≠ [] := (pathOk_spec tmp ht).1
  have h0 : splitLines (renderRaw name folder tmp entries)
      = rawLines name folder tmp entries := by
    unfold renderRaw
    refine splitLines_joinLines _ ?_ ?_
    · simp [rawLines]
    · intro l hl
      rcases mem_rawLines name folder tmp entries l hl with rfl | ⟨e, he, hle⟩
      · simp
      · exact renderEntry_noNl name folder tmp hn hf ht e (hwe e he) l hle
  have hadd : onlyInCaptures ("packages/" ++ name) (rawLines name folder tmp entries)
      = (entries.map (canonAdded name folder)).flatten := by
    unfold onlyInCaptures rawLines
    rw [List.filterMap_append,
      show List.filterMap (onlyInCapture ("packages/" ++ name)) [([] : List Char)]
          = [] from by rw [List.filterMap_cons_none (onlyInCapture_nil _)]; rfl,
      List.append_nil, flatten_filterMap, List.map_map]
    refine congrArg List.flatten (List.map_congr_left ?_)
    intro e he
    exact (procEntry name folder tmp hn hf ht hh e (hwe e he)).2.1
  have hdel : onlyInCaptures (installedDir tmp name)
      (blankOnlyIn ("packages/" ++ name) (rawLines name folder tmp entries))
      = (entries.map canonDeleted).flatten := by
    unfold onlyInCaptures rawLines
    rw [blankOnlyIn_eq_map, List.map_append, List.map_flatten, List.filterMap_append,
      show ([([] : List Char)].map (blankLine ("packages/" ++ name)))
          = [([] : List Char)] from by simp [blankLine_nil],
      show List.filterMap (onlyInCapture (installedDir tmp name)) [([] : List Char)]
          = [] from by rw [List.filterMap_cons_none (onlyInCapture_nil _)]; rfl,
      List.append_nil, flatten_filterMap, List.map_map, List.map_map]
    refine congrArg List.flatten (List.map_congr_left ?_)
    intro e he
    exact (procEntry name folder tmp hn hf ht hh e (hwe e he)).2.2
  have hL2mem : ∀ l ∈ ((rawLines name folder tmp entries).map
      (blankLine ("packages/" ++ name))).map (blankLine (installedDir tmp name)),
      l = [] ∨ ∃ e ∈ entries, l ∈ renderEntry name folder tmp e := by
    intro l hl
    rcases mem_map_blankLine _ _ _ hl with rfl | hl2
    · exact Or.inl rfl
    · rcases mem_map_blankLine _ _ _ hl2 with rfl | hl3
      · exact Or.inl rfl
      · exact mem_rawLines name folder tmp entries l hl3
  have hL2nl : ∀ l ∈ ((rawLines name folder tmp entries).map
      (blankLine ("packages/" ++ name))).map (blankLine (installedDir tmp name)),
      '\n' ∉ l := by
    intro l hl
    rcases hL2mem l hl with rfl | ⟨e, he, hle⟩
    · simp
    · exact renderEntry_noNl name folder tmp hn hf ht e (hwe e he) l hle
  have hL2dash : ∀ l ∈ ((rawLines name folder tmp entries).map
      (blankLine ("packages/" ++ name))).map (blankLine (installedDir tmp name)),
      List.isSuffixOf ['-', 'n'] (dropTrailingWs l) = false := by
    intro l hl
    rcases hL2mem l hl with rfl | ⟨e, he, hle⟩
    · decide
    · have := renderEntry_dashFree name folder tmp e (hwe e he) l hle
      simpa [noDashNTail] using this
  have hL2ne : (((rawLines name folder tmp entries).map
      (blankLine ("packages/" ++ name))).map (blankLine (installedDir tmp name))) ≠ [] := by
    simp [rawLines]
  have e1 : stripDashN (joinLines (((rawLines name folder tmp entries).map
      (blankLine ("packages/" ++ name))).map (blankLine (installedDir tmp name))))
      = joinLines (((rawLines name folder tmp entries).map
          (blankLine ("packages/" ++ name))).map (blankLine (installedDir tmp name))) :=
    stripDashN_joinLines_id _ hL2dash
  have e2 : replaceAll tmp.data ("package").data
      (joinLines (((rawLines name folder tmp entries).map
        (blankLine ("packages/" ++ name))).map (blankLine (installedDir tmp name))))
      = joinLines ((((rawLines name folder tmp entries).map
          (blankLine ("packages/" ++ name))).map (blankLine (installedDir tmp name))).map
          (replaceAll tmp.data ("package").data)) :=
    replaceAll_joinLines _ _ htne (not_nl_of_pathOk tmp ht) _
  have hmemrA : ∀ l ∈ (((rawLines name folder tmp entries).map
      (blankLine ("packages/" ++ name))).map (blankLine (installedDir tmp name))).map
      (replaceAll tmp.data ("package").data), '\n' ∉ l := by
    intro l hl
    obtain ⟨x, hx, rfl⟩ := List.mem_map.mp hl
    intro hm
    rcases mem_replaceAll tmp.data ("package").data x.length x '\n' (Nat.le_refl _) hm
      with h | h
    · exact hL2nl x hx h
    · revert h
      decide
  have e3 : splitLines (joinLines ((((rawLines name folder tmp entries).map
      (blankLine ("packages/" ++ name))).map (blankLine (installedDir tmp name))).map
      (replaceAll tmp.data ("package").data)))
      = (((rawLines name folder tmp entries).map
          (blankLine ("packages/" ++ name))).map (blankLine (installedDir tmp name))).map
          (replaceAll tmp.data ("package").data) :=
    splitLines_joinLines _ (by simpa using hL2ne) hmemrA
  have hmemsV1 : ∀ l ∈ ((((rawLines name folder tmp entries).map
      (blankLine ("packages/" ++ name))).map (blankLine (installedDir tmp name))).map
      (replaceAll tmp.data ("package").data)).map
      (stripVolatile ("--- ").data ("package").data), '\n' ∉ l := by
    intro l hl
    obtain ⟨x, hx, rfl⟩ := List.mem_map.mp hl
    have hx2 : noNl x = true := (noNl_iff x).mpr (hmemrA x hx)
    exact (noNl_iff _).mp
      (noNl_stripVolatile ("--- ").data ("package").data x (by decide) (by decide) hx2)
  have e4 : splitLines (joinLines (((((rawLines name folder tmp entries).map
      (blankLine ("packages/" ++ name))).map (blankLine (installedDir tmp name))).map
      (replaceAll tmp.data ("package").data)).map
      (stripVolatile ("--- ").data ("package").data)))
      = ((((rawLines name folder tmp entries).map
          (blankLine ("packages/" ++ name))).map (blankLine (installedDir tmp name))).map
          (replaceAll tmp.data ("package").data)).map
          (stripVolatile ("--- ").data ("package").data) :=
    splitLines_joinLines _ (by simpa using hL2ne) hmemsV1
  have eproc : (rawLines name folder tmp entries).map (procLine name tmp)
      = (entries.map (canonEntryLines name folder)).flatten ++ [[]] := by
    rw [show rawLines name folder tmp entries
        = (entries.map (renderEntry name folder tmp)).flatten ++ [[]] from rfl,
      List.map_append, List.map_flatten, List.map_map]
    congr 1
    refine congrArg List.flatten (List.map_congr_left ?_)
    intro e he
    exact (procEntry name folder tmp hn hf ht hh e (hwe e he)).1
  unfold normalizeDiff canonNormalize
  dsimp only
  rw [h0, hadd, hdel]
  rw [blankOnlyIn_eq_map, blankOnlyIn_eq_map]
  rw [e1, e2, e3, e4]
  rw [mapPipeline name tmp (rawLines name folder tmp entries)]
  rw [eproc]
  by_cases h1 : dRm ≠ "" <;> by_cases h2 : dLc ≠ "" <;> simp [h1, h2]

/-! ### The canonical value depends only on the date-stripped entries -/

theorem canonAdded_stripDates (name folder : String) (e : DiffEntry) :
    canonAdded name folder (stripDates e) = canonAdded name folder e := by
  cases e <;> rfl

theorem canonDeleted_stripDates (e : DiffEntry) :
    canonDeleted (stripDates e) = canonDeleted e := by
  cases e <;> rfl

theorem canonEntryLines_stripDates (name folder : String) (e : DiffEntry) :
    canonEntryLines name folder (stripDates e) = canonEntryLines name folder e := by
  cases e <;> rfl

theorem canonNormalize_entries_congr (name folder : String)
    (es1 es2 : List DiffEntry) (h : es1.map stripDates = es2.map stripDates)
    (r l : Bool) :
    canonNormalize name folder es1 r l = canonNormalize name folder es2 r l := by
  have key : ∀ g : DiffEntry → List (List Char),
      (∀ e, g (stripDates e) = g e) → es1.map g = es2.map g := by
    intro g hg
    calc es1.map g = (es1.map stripDates).map g := by
          rw [List.map_map]
          exact List.map_congr_left (fun e _ => (hg e).symm)
      _ = (es2.map stripDates).map g := by rw [h]
      _ = es2.map g := by
          rw [List.map_map]
          exact List.map_congr_left (fun e _ => hg e)
  unfold canonNormalize
  rw [key (canonAdded name folder) (canonAdded_stripDates name folder),
    key canonDeleted canonDeleted_stripDates,
    key (canonEntryLines name folder) (canonEntryLines_stripDates name folder)]

/-- **C9 (amended).** Diff normalization is deterministic only for benign
content: for identical package and repository contents (same
date-stripped diff entries, same truthiness of the README/LICENSE
diffs, same installed version) whose path components contain no
whitespace or quote and whose hunk lines contain neither the temp path
nor header-shaped text (`diffWf`), two successful `computeDiff`
executions with different temp folders, different header timestamps
(and even a different cleanup outcome) return byte-identical results:
every occurrence of the temp directory path is replaced (line 114) and
every header timestamp is stripped (lines 115-116).  Outside that
range the guarantee FAILS — see the counterexample: a space in a
changed file's name defeats the `[^" ]+?` of the regexes at
lines 115-116, the run-varying timestamps survive into the result, and
the two runs differ byte-wise. -/
theorem claimC9_diff_normalization_deterministic (name folder : String)
    (env1 env2 : DiffEnv)
    (hw1 : diffWf name folder env1 = true) (hw2 : diffWf name folder env2 = true)
    (hok1 : env1.installOk = true) (hdk1 : env1.diffOk = true)
    (hok2 : env2.installOk = true) (hdk2 : env2.diffOk = true)
    (hent : env1.entries.map stripDates = env2.entries.map stripDates)
    (hver : env1.installedVersion = env2.installedVersion)
    (hrm : env1.diffReadme ≠ "" ↔ env2.diffReadme ≠ "")
    (hlc : env1.diffLicense ≠ "" ↔ env2.diffLicense ≠ "") :
    (computeDiffRun name folder env1).1 = (computeDiffRun name folder env2).1 := by
  simp only [diffWf, Bool.and_eq_true] at hw1 hw2
  obtain ⟨⟨⟨ht1, hn1⟩, hf1⟩, he1⟩ := hw1
  obtain ⟨⟨⟨ht2, hn2⟩, hf2⟩, he2⟩ := hw2
  have hnd1 := normalizeDiff_canon name folder (tmpFolder env1) env1.entries
    hn1 hf1 ht1 rfl (List.all_eq_true.mp he1) env1.diffReadme env1.diffLicense
  have hnd2 := normalizeDiff_canon name folder (tmpFolder env2) env2.entries
    hn2 hf2 ht2 rfl (List.all_eq_true.mp he2) env2.diffReadme env2.diffLicense
  have hmain : normalizeDiff name folder (tmpFolder env1)
      (renderRaw name folder (tmpFolder env1) env1.entries)
      env1.diffReadme env1.diffLicense
      = normalizeDiff name folder (tmpFolder env2)
        (renderRaw name folder (tmpFolder env2) env2.entries)
        env2.diffReadme env2.diffLicense := by
    rw [hnd1, hnd2, decide_eq_decide.mpr hrm, decide_eq_decide.mpr hlc,
      canonNormalize_entries_congr name folder env1.entries env2.entries hent]
  unfold computeDiffRun
  rw [hok1, hok2, hdk1, hdk2]
  simp only [eq_false (by decide : ¬ (true = false)), if_false]
  rw [hmain, hver]

/-- A successful `computeDiff` environment: one added file, one deleted
file, one changed file, a changed README, an unchanged LICENSE. -/
def envC9a : DiffEnv :=
  { tmpSuffix := "abc123", installOk := true, installedVersion := "1.2.3",
    diffOk := true,
    entries :=
      [DiffEntry.onlyInRepo "newfile.json",
       DiffEntry.onlyInInstalled "gone.json",
       DiffEntry.fileDiff "index.json"
         "2024-01-02 03:04:05.000000000 +0000"
         "2024-01-03 10:11:12.000000000 +0000"
         ["@@ -1,2 +1,2 @@", "-  fetch: 1,", "+  fetch: 2,"]],
    diffReadme := "readme diff a", diffLicense := "", rimrafOk := true }

/-- The same content observed at a different time: a different temp
folder, different header timestamps, a different (still non-empty) README
diff, and a failing cleanup. -/
def envC9b : DiffEnv :=
  { tmpSuffix := "zz9", installOk := true, installedVersion := "1.2.3",
    diffOk := true,
    entries :=
      [DiffEntry.onlyInRepo "newfile.json",
       DiffEntry.onlyInInstalled "gone.json",
       DiffEntry.fileDiff "index.json"
         "2025-06-07 08:09:10.123456789 +0200"
         "2025-06-08 11:12:13.123456789 +0200"
         ["@@ -1,2 +1,2 @@", "-  fetch: 1,", "+  fetch: 2,"]],
    diffReadme := "a different readme diff", diffLicense := "", rimrafOk := false }

set_option maxRecDepth 16384 in
theorem claimC9_diff_normalization_deterministic_witness :
    (diffWf "spec" "spec" envC9a = true ∧ diffWf "spec" "spec" envC9b = true
      ∧ envC9a.tmpSuffix ≠ envC9b.tmpSuffix
      ∧ envC9a.entries ≠ envC9b.entries
      ∧ envC9a.entries.map stripDates = envC9b.entries.map stripDates)
    ∧ (computeDiffRun "spec" "spec" envC9a).1
        = (computeDiffRun "spec" "spec" envC9b).1 :=
  ⟨by decide,
   claimC9_diff_normalization_deterministic "spec" "spec" envC9a envC9b
     (by decide) (by decide) (by decide) (by decide) (by decide) (by decide)
     (by decide) (by decide) (by decide) (by decide)⟩

/-- A successful run whose changed file has a space in its name. -/
def envC9c1 : DiffEnv :=
  { tmpSuffix := "abc123", installOk := true, installedVersion := "1.2.3",
    diffOk := true,
    entries := [DiffEntry.fileDiff "a b.json"
      "2024-01-02 03:04:05.000000000 +0000"
      "2024-01-03 10:11:12.000000000 +0000"
      ["@@ -1,2 +1,2 @@", "-  fetch: 1,", "+  fetch: 2,"]],
    diffReadme := "", diffLicense := "", rimrafOk := true }

/-- The same content observed at a different time: different temp
folder, different header timestamps. -/
def envC9c2 : DiffEnv :=
  { tmpSuffix := "zz9", installOk := true, installedVersion := "1.2.3",
    diffOk := true,
    entries := [DiffEntry.fileDiff "a b.json"
      "2025-06-07 08:09:10.123456789 +0200"
      "2025-06-08 11:12:13.123456789 +0200"
      ["@@ -1,2 +1,2 @@", "-  fetch: 1,", "+  fetch: 2,"]],
    diffReadme := "", diffLicense := "", rimrafOk := true }

/-- **C9 counterexample.** The original claim — byte-identical
DiffResult text for EVERY pair of runs over identical contents — is
false: when a changed file is named `a b.json`, the space prevents the
`[^" ]+?"?` of the timestamp-stripping regexes (lines 115-116) from
reaching the `\s+[\d\-\s:\.\+]+$` tail, the `---`/`+++` header lines
keep their run-varying modification times, and two runs over the same
date-stripped entries return different text. -/
theorem claimC9_counterexample :
    envC9c1.entries.map stripDates = envC9c2.entries.map stripDates
    ∧ envC9c1.installedVersion = envC9c2.installedVersion
    ∧ envC9c1.diffReadme = envC9c2.diffReadme
    ∧ envC9c1.diffLicense = envC9c2.diffLicense
    ∧ envC9c1.tmpSuffix ≠ envC9c2.tmpSuffix
    ∧ (computeDiffRun "spec" "spec" envC9c1).1.toOption.map DiffOut.text
        ≠ (computeDiffRun "spec" "spec" envC9c2).1.toOption.map DiffOut.text := by
  refine ⟨by decide, by decide, by decide, by decide, by decide, by decide⟩

end PrepareRelease
